import Mathlib

/-!
# Multi-waveform signal generator (PSoC, CORDIC): `Design01.cydsn/main.c`

Shallow embedding of `main.c`.  The C code computes in `float`; here every
`float` expression is read as exact arithmetic in a linearly ordered field `α`
with a floor function (`ℚ` for evaluation, `ℝ` for comparison with the real
sine and cosine).  The decimal literals of the source (`PI`, `K`, the
`angles` table) keep the decimal value written in the source.
-/

namespace Design01

variable {α : Type} [LinearOrderedField α] [FloorRing α]

/-! ## Constants -/

/-- `#define CORDIC_ITERATIONS 16` -/
def CORDIC_ITERATIONS : Nat := 16

/-- `#define PI 3.14159265358979323846f` -/
def PI : α := 3.14159265358979323846

/-- `#define SAMPLE_RATE 1000` -/
def SAMPLE_RATE : Nat := 1000

/-- `#define DAC_MAX 4095` -/
def DAC_MAX : Nat := 4095

/-! ## C library and conversion semantics -/

/-- Rounding toward zero, the integer part used by `fmodf` and by the
conversion of a `float` to an integer type. -/
def trunc (q : α) : Int := if 0 ≤ q then ⌊q⌋ else ⌈q⌉

/-- `fmodf(x, y)`: `x - n * y` where `n` is `x / y` rounded toward zero; the
result carries the sign of `x`. -/
def fmodf (x y : α) : α := x - (trunc (x / y) : α) * y

/-- `(uint16_t) v` for a `float` value `v`: discard the fraction, then reduce
modulo `2 ^ 16`. -/
def to_uint16 (v : α) : Nat := (trunc v % 65536).toNat

/-! ## CORDIC -/

/-- `const float K = 0.6072529350088812561694f;` -/
def K : α := 0.6072529350088812561694

/-- `static const float angles[CORDIC_ITERATIONS]` -/
def angles_table : List α :=
  [0.7853981633974483, 0.4636476090008061, 0.24497866312686414,
   0.12435499454676144, 0.06241880999595735, 0.031239833430268277,
   0.015623728620476831, 0.007812341060101111, 0.0039062301319669718,
   0.0019531225164788188, 0.0009765621895593195, 0.0004882812111948983,
   0.00024414062014936177, 0.00012207031189367021, 6.103515617420877e-05,
   3.0517578115526096e-05]

/-- `angles[i]` -/
def angles (i : Nat) : α := (angles_table : List α).getD i 0

/-- The local variables `x`, `y`, `angle` of `cordic_sin_cos`. -/
structure RotationState (α : Type) where
  x : α
  y : α
  angle : α

/-- The pre-rotation of `cordic_sin_cos`: the folded angle and the value of
`quadrant`. -/
def fold_quadrant (theta : α) : α × Nat :=
  if theta > PI / 2 ∧ theta ≤ PI then (PI - theta, 1)
  else if theta > PI ∧ theta ≤ 3 * PI / 2 then (theta - PI, 2)
  else if theta > 3 * PI / 2 then (2 * PI - theta, 3)
  else (theta, 0)

/-- Body of the `for` loop of `cordic_sin_cos` at index `i`. -/
def cordic_step (theta : α) (s : RotationState α) (i : Nat) : RotationState α :=
  if theta > s.angle then
    { x := s.x - s.y / 2 ^ i, y := s.y + s.x / 2 ^ i, angle := s.angle + angles i }
  else
    { x := s.x + s.y / 2 ^ i, y := s.y - s.x / 2 ^ i, angle := s.angle - angles i }

/-- The loop `for (i = 0; i < n; i++)` started from `s`. -/
def cordic_loop (theta : α) (n : Nat) (s : RotationState α) : RotationState α :=
  (List.range n).foldl (cordic_step theta) s

/-- The `switch (quadrant)` correction at the end of `cordic_sin_cos`. -/
def quadrant_correction (quadrant : Nat) (s : RotationState α) : RotationState α :=
  match quadrant with
  | 1 => { s with x := -s.x }
  | 2 => { s with x := -s.x, y := -s.y }
  | 3 => { s with y := -s.y }
  | _ => s

/-- `cordic_sin_cos(theta, &sin_val, &cos_val)`: the pair
`(sin_val, cos_val)` written through the two pointers. -/
def cordic_sin_cos (theta : α) : α × α :=
  let theta := fmodf theta (2 * PI)
  let f := fold_quadrant theta
  let s := cordic_loop f.1 CORDIC_ITERATIONS { x := K, y := 0, angle := 0 }
  let s := quadrant_correction f.2 s
  (s.y, s.x)

/-! ## Waveform generation -/

/-- First two statements of `generate_sample`: `theta + phase` reduced by
`fmodf` and shifted by `2 * PI` when negative. -/
def normalize_theta (theta phase : α) : α :=
  let t := fmodf (theta + phase) (2 * PI)
  if t < 0 then t + 2 * PI else t

/-- The triangle value computed in the `'t'` case from the reduced angle. -/
def triangle_val (theta : α) : α :=
  let normalized := theta / (2 * PI)
  if normalized < 0.25 then 4 * normalized
  else if normalized < 0.75 then 2 - 4 * normalized
  else -4 + 4 * normalized

/-- The `float` expression that the selected `case` of `generate_sample`
converts to `uint16_t`; `none` when no `case` matches. -/
def mapped_value (theta amplitude phase : α) (waveform_type : Char) : Option α :=
  let theta := normalize_theta theta phase
  match waveform_type with
  | 's' => some (2047.5 + 2047.5 * (cordic_sin_cos theta).1 * amplitude)
  | 'c' => some (2047.5 + 2047.5 * (cordic_sin_cos theta).2 * amplitude)
  | 't' => some (2047.5 + 2047.5 * triangle_val theta * amplitude)
  | 'q' => some (if theta < PI then 2047.5 + 2047.5 * amplitude
                 else 2047.5 - 2047.5 * amplitude)
  | 'd' => some (2047.5 + 2047.5 * amplitude)
  | _ => none

/-- The two range checks at the end of `generate_sample`, on the unsigned
`dac_value`. -/
def clamp_dac (dac_value : Nat) : Nat :=
  let dac_value := if dac_value > DAC_MAX then DAC_MAX else dac_value
  if dac_value < 0 then 0 else dac_value

/-- `generate_sample(theta, amplitude, phase, waveform_type)`. -/
def generate_sample (theta amplitude phase : α) (waveform_type : Char) : Nat :=
  let dac_value :=
    match mapped_value theta amplitude phase waveform_type with
    | some v => to_uint16 v
    | none => 0
  clamp_dac dac_value

/-! ## Main loop -/

/-- The synthesis parameters held in the locals `waveform_type`, `amplitude`,
`frequency` and `phase` of `main`. -/
structure Params (α : Type) where
  waveform_type : Char
  amplitude : α
  frequency : α
  phase : α

/-- The block `Default Parameters` of `main`. -/
def default_params : Params α :=
  { waveform_type := 's', amplitude := 1, frequency := 1, phase := 0 }

/-- `switch(receive_buffer[0])`: the waveform code selected by the index byte. -/
def waveform_of_index (b : Fin 256) : Char :=
  match b.val with
  | 0 => 's'
  | 1 => 'c'
  | 2 => 'q'
  | 3 => 't'
  | 4 => 'd'
  | _ => 's'

/-- The statement `if (bytes_read == 4) { ... }` of the main loop, on the
buffer `uint8_t receive_buffer[4]`. -/
def parameter_update (p : Params α) (bytes_read : Nat)
    (receive_buffer : Fin 4 → Fin 256) : Params α :=
  if bytes_read = 4 then
    { waveform_type := waveform_of_index (receive_buffer 0),
      frequency := ((receive_buffer 1).val : α),
      amplitude := ((receive_buffer 2).val : α) / 255,
      phase := ((receive_buffer 3).val : α) / 255 * 2 * PI }
  else p

/-- What the USB UART reports in one pass of the loop: the result of
`USBUART_DataIsReady()`, the count returned by `USBUART_GetAll` and the buffer
it filled. -/
structure UsbInput where
  data_ready : Bool
  bytes_read : Nat
  receive_buffer : Fin 4 → Fin 256

/-- The block `Parameter Update from MATLAB` of the main loop. -/
def poll_update (p : Params α) (u : UsbInput) : Params α :=
  if u.data_ready then parameter_update p u.bytes_read u.receive_buffer else p

/-- The block `Update theta for next cycle` of the main loop. -/
def advance_theta (theta frequency : α) : α :=
  let theta := theta + 2 * PI * frequency / (SAMPLE_RATE : α)
  if theta ≥ 2 * PI then theta - 2 * PI else theta

/-- The locals of `main` that survive from one pass of the loop to the next. -/
structure LoopState (α : Type) where
  params : Params α
  theta : α

/-- State of `main` on entry to `while (1)`. -/
def initial_state : LoopState α := { params := default_params, theta := 0 }

/-- One pass of `while (1)`: the next state and the value given to
`DAC_SetValue`. -/
def loop_iteration (st : LoopState α) (u : UsbInput) : LoopState α × Nat :=
  let p := poll_update st.params u
  let dac_value := generate_sample st.theta p.amplitude p.phase p.waveform_type
  ({ params := p, theta := advance_theta st.theta p.frequency }, dac_value)

/-- The state of `main` after one pass of the loop for each element of `us`. -/
def run_loop (us : List UsbInput) : LoopState α :=
  us.foldl (fun st u => (loop_iteration st u).1) initial_state

/-! ## Truncation and `fmodf` -/

section Lemmas

theorem trunc_of_nonneg {α : Type} [LinearOrderedField α] [FloorRing α]
    {q : α} (h : 0 ≤ q) : trunc q = ⌊q⌋ := by
  unfold trunc
  rw [if_pos h]

theorem trunc_of_neg {α : Type} [LinearOrderedField α] [FloorRing α]
    {q : α} (h : q < 0) : trunc q = ⌈q⌉ := by
  unfold trunc
  rw [if_neg (not_le.mpr h)]

theorem trunc_of_nonneg_lt_one {α : Type} [LinearOrderedField α] [FloorRing α]
    {q : α} (h0 : 0 ≤ q) (h1 : q < 1) : trunc q = 0 := by
  rw [trunc_of_nonneg h0]
  exact Int.floor_eq_iff.mpr ⟨by simpa using h0, by simpa using h1⟩

theorem trunc_of_neg_gt_neg_one {α : Type} [LinearOrderedField α] [FloorRing α]
    {q : α} (h0 : q < 0) (h1 : -1 < q) : trunc q = 0 := by
  rw [trunc_of_neg h0]
  exact Int.ceil_eq_iff.mpr ⟨by simpa using h1, by simpa using h0.le⟩

theorem fmodf_of_nonneg_lt {α : Type} [LinearOrderedField α] [FloorRing α]
    {x y : α} (hx : 0 ≤ x) (hxy : x < y) : fmodf x y = x := by
  have hy : 0 < y := lt_of_le_of_lt hx hxy
  unfold fmodf
  rw [trunc_of_nonneg_lt_one (div_nonneg hx hy.le) ((div_lt_one hy).mpr hxy)]
  simp

theorem fmodf_of_neg_gt {α : Type} [LinearOrderedField α] [FloorRing α]
    {x y : α} (hx : x < 0) (hxy : -y < x) : fmodf x y = x := by
  have hy : 0 < y := by linarith
  unfold fmodf
  rw [trunc_of_neg_gt_neg_one (div_neg_of_neg_of_pos hx hy)
    (by rw [lt_div_iff₀ hy]; linarith)]
  simp

theorem fmodf_nonneg_of_nonneg {α : Type} [LinearOrderedField α] [FloorRing α]
    {x y : α} (hx : 0 ≤ x) (hy : 0 < y) : 0 ≤ fmodf x y := by
  unfold fmodf
  rw [trunc_of_nonneg (div_nonneg hx hy.le)]
  have h := Int.floor_le (x / y)
  have h2 : (⌊x / y⌋ : α) * y ≤ x / y * y := mul_le_mul_of_nonneg_right h hy.le
  rw [div_mul_cancel₀ x hy.ne.symm] at h2
  linarith

theorem fmodf_lt_of_nonneg {α : Type} [LinearOrderedField α] [FloorRing α]
    {x y : α} (hx : 0 ≤ x) (hy : 0 < y) : fmodf x y < y := by
  unfold fmodf
  rw [trunc_of_nonneg (div_nonneg hx hy.le)]
  have h := Int.lt_floor_add_one (x / y)
  have h2 : x / y * y < ((⌊x / y⌋ : α) + 1) * y := mul_lt_mul_of_pos_right h hy
  rw [div_mul_cancel₀ x hy.ne.symm] at h2
  linarith

theorem fmodf_nonpos_of_neg {α : Type} [LinearOrderedField α] [FloorRing α]
    {x y : α} (hx : x < 0) (hy : 0 < y) : fmodf x y ≤ 0 := by
  unfold fmodf
  rw [trunc_of_neg (div_neg_of_neg_of_pos hx hy)]
  have h := Int.le_ceil (x / y)
  have h2 : x / y * y ≤ (⌈x / y⌉ : α) * y := mul_le_mul_of_nonneg_right h hy.le
  rw [div_mul_cancel₀ x hy.ne.symm] at h2
  linarith

theorem fmodf_gt_of_neg {α : Type} [LinearOrderedField α] [FloorRing α]
    {x y : α} (hx : x < 0) (hy : 0 < y) : -y < fmodf x y := by
  unfold fmodf
  rw [trunc_of_neg (div_neg_of_neg_of_pos hx hy)]
  have h := Int.ceil_lt_add_one (x / y)
  have h2 : (⌈x / y⌉ : α) * y < (x / y + 1) * y := mul_lt_mul_of_pos_right h hy
  rw [add_mul, div_mul_cancel₀ x hy.ne.symm] at h2
  linarith

theorem PI_pos {α : Type} [LinearOrderedField α] : (0 : α) < PI := by
  unfold PI
  norm_num

theorem normalize_theta_nonneg {α : Type} [LinearOrderedField α] [FloorRing α]
    (theta phase : α) : 0 ≤ normalize_theta theta phase := by
  have h2 : (0 : α) < 2 * PI := by linarith [PI_pos (α := α)]
  unfold normalize_theta
  rcases le_or_lt 0 (theta + phase) with h | h
  · have := fmodf_nonneg_of_nonneg h h2
    simp only
    rw [if_neg (not_lt.mpr this)]
    exact this
  · have := fmodf_gt_of_neg h h2
    simp only
    split_ifs with h3
    · linarith
    · exact not_lt.mp h3

theorem normalize_theta_lt {α : Type} [LinearOrderedField α] [FloorRing α]
    (theta phase : α) : normalize_theta theta phase < 2 * PI := by
  have h2 : (0 : α) < 2 * PI := by linarith [PI_pos (α := α)]
  unfold normalize_theta
  rcases le_or_lt 0 (theta + phase) with h | h
  · have h0 := fmodf_nonneg_of_nonneg h h2
    have := fmodf_lt_of_nonneg h h2
    simp only
    rw [if_neg (not_lt.mpr h0)]
    exact this
  · have := fmodf_nonpos_of_neg h h2
    simp only
    split_ifs with h3
    · linarith
    · linarith

/-! ## The rotation loop scales the squared length by a fixed factor -/

theorem cordic_step_norm {α : Type} [LinearOrderedField α]
    (theta : α) (s : RotationState α) (i : Nat) :
    (cordic_step theta s i).x ^ 2 + (cordic_step theta s i).y ^ 2
      = (s.x ^ 2 + s.y ^ 2) * (1 + ((4 : α) ^ i)⁻¹) := by
  have h4 : (4 : α) ^ i = (2 ^ i) ^ 2 := by
    rw [← pow_mul, mul_comm, pow_mul]
    norm_num
  have h2 : (2 : α) ^ i ≠ 0 := pow_ne_zero _ (by norm_num)
  unfold cordic_step
  split_ifs <;> (simp only [h4]; field_simp; ring)

theorem cordic_loop_succ {α : Type} [LinearOrderedField α]
    (theta : α) (n : Nat) (s : RotationState α) :
    cordic_loop theta (n + 1) s = cordic_step theta (cordic_loop theta n s) n := by
  simp [cordic_loop, List.range_succ]

theorem cordic_loop_norm {α : Type} [LinearOrderedField α]
    (theta : α) (n : Nat) (s : RotationState α) :
    (cordic_loop theta n s).x ^ 2 + (cordic_loop theta n s).y ^ 2
      = (s.x ^ 2 + s.y ^ 2) * ∏ i ∈ Finset.range n, (1 + ((4 : α) ^ i)⁻¹) := by
  induction n with
  | zero => simp [cordic_loop]
  | succ n ih => rw [cordic_loop_succ, cordic_step_norm, ih, Finset.prod_range_succ, mul_assoc]

theorem quadrant_correction_norm {α : Type} [LinearOrderedField α] (q : Nat) (s : RotationState α) :
    (quadrant_correction q s).x ^ 2 + (quadrant_correction q s).y ^ 2 = s.x ^ 2 + s.y ^ 2 := by
  unfold quadrant_correction
  split <;> simp

theorem cordic_sin_cos_norm {α : Type} [LinearOrderedField α] [FloorRing α] (theta : α) :
    (cordic_sin_cos theta).1 ^ 2 + (cordic_sin_cos theta).2 ^ 2
      = K ^ 2 * ∏ i ∈ Finset.range 16, (1 + ((4 : α) ^ i)⁻¹) := by
  unfold cordic_sin_cos
  simp only
  rw [add_comm, quadrant_correction_norm, cordic_loop_norm]
  simp [CORDIC_ITERATIONS]

theorem gain_le_one {α : Type} [LinearOrderedField α]
    : K ^ 2 * ∏ i ∈ Finset.range 16, (1 + ((4 : α) ^ i)⁻¹) ≤ 1 := by
  simp only [Finset.prod_range_succ, Finset.prod_range_zero, K]
  norm_num

theorem gain_ge {α : Type} [LinearOrderedField α]
    : 1 - 0.0001 ≤ K ^ 2 * ∏ i ∈ Finset.range 16, (1 + ((4 : α) ^ i)⁻¹) := by
  simp only [Finset.prod_range_succ, Finset.prod_range_zero, K]
  norm_num

theorem cordic_sin_abs_le_one {α : Type} [LinearOrderedField α] [FloorRing α]
    (theta : α) : |(cordic_sin_cos theta).1| ≤ 1 := by
  have h := cordic_sin_cos_norm theta
  have hg := gain_le_one (α := α)
  rw [← h] at hg
  rw [← sq_le_one_iff_abs_le_one]
  nlinarith [sq_nonneg (cordic_sin_cos theta).2]

theorem cordic_cos_abs_le_one {α : Type} [LinearOrderedField α] [FloorRing α]
    (theta : α) : |(cordic_sin_cos theta).2| ≤ 1 := by
  have h := cordic_sin_cos_norm theta
  have hg := gain_le_one (α := α)
  rw [← h] at hg
  rw [← sq_le_one_iff_abs_le_one]
  nlinarith [sq_nonneg (cordic_sin_cos theta).1]

/-! ## Conversion to the DAC word -/

theorem trunc_nonneg {α : Type} [LinearOrderedField α] [FloorRing α]
    {v : α} (h : 0 ≤ v) : 0 ≤ trunc v := by
  rw [trunc_of_nonneg h]
  exact Int.floor_nonneg.mpr h

theorem trunc_le_of_le {α : Type} [LinearOrderedField α] [FloorRing α]
    {v : α} {n : Int} (h0 : 0 ≤ v) (h : v ≤ n) : trunc v ≤ n := by
  rw [trunc_of_nonneg h0]
  have h1 : ((⌊v⌋ : Int) : α) ≤ n := le_trans (Int.floor_le v) h
  exact_mod_cast h1

theorem le_trunc_of_le {α : Type} [LinearOrderedField α] [FloorRing α]
    {v : α} {n : Int} (h0 : 0 ≤ v) (h : (n : α) ≤ v) : n ≤ trunc v := by
  rw [trunc_of_nonneg h0]
  exact Int.le_floor.mpr h

theorem to_uint16_of_range {α : Type} [LinearOrderedField α] [FloorRing α]
    {v : α} (h0 : 0 ≤ v) (h1 : v ≤ 4095) :
    (to_uint16 v : Int) = trunc v := by
  have hn := trunc_nonneg h0
  have hu : trunc v ≤ 4095 := trunc_le_of_le h0 (by exact_mod_cast h1)
  unfold to_uint16
  rw [Int.emod_eq_of_lt hn (by omega), Int.toNat_of_nonneg hn]

theorem clamp_dac_le (n : Nat) : clamp_dac n ≤ DAC_MAX := by
  unfold clamp_dac DAC_MAX
  simp only [Nat.not_lt_zero, if_false]
  split_ifs <;> omega

theorem clamp_dac_of_le {n : Nat} (h : n ≤ 4095) : clamp_dac n = n := by
  unfold clamp_dac DAC_MAX
  simp only [Nat.not_lt_zero, if_false]
  rw [if_neg (by omega)]

theorem map_range {α : Type} [LinearOrderedField α]
    {v a : α} (hv : |v| ≤ 1) (ha0 : 0 ≤ a) (ha1 : a ≤ 1) :
    0 ≤ 2047.5 + 2047.5 * v * a ∧ 2047.5 + 2047.5 * v * a ≤ 4095 := by
  obtain ⟨hv0, hv1⟩ := abs_le.mp hv
  have h1 : v * a ≤ 1 := by nlinarith
  have h2 : -1 ≤ v * a := by nlinarith
  constructor <;> (norm_num; nlinarith)

theorem triangle_val_range {α : Type} [LinearOrderedField α]
    {angle : α} (h0 : 0 ≤ angle) (h1 : angle < 2 * PI) :
    -1 ≤ triangle_val angle ∧ triangle_val angle ≤ 1 := by
  have hp : (0 : α) < 2 * PI := by linarith [PI_pos (α := α)]
  have hn0 : 0 ≤ angle / (2 * PI) := div_nonneg h0 hp.le
  have hn1 : angle / (2 * PI) < 1 := (div_lt_one hp).mpr h1
  unfold triangle_val
  simp only
  split_ifs with ha hb
  · norm_num at ha
    constructor <;> linarith
  · norm_num at ha hb
    constructor <;> linarith
  · norm_num at ha hb
    constructor <;> linarith

theorem mapped_value_range {α : Type} [LinearOrderedField α] [FloorRing α]
    (theta amplitude phase : α) (w : Char)
    (ha0 : 0 ≤ amplitude) (ha1 : amplitude ≤ 1)
    (hw : w = 's' ∨ w = 'c' ∨ w = 't' ∨ w = 'q' ∨ w = 'd') :
    ∃ m, mapped_value theta amplitude phase w = some m ∧ 0 ≤ m ∧ m ≤ 4095 := by
  have hone : |(1 : α)| ≤ 1 := by simp
  have hneg : |(-1 : α)| ≤ 1 := by simp
  rcases hw with h | h | h | h | h <;> subst h
  · exact ⟨_, rfl, map_range (cordic_sin_abs_le_one _) ha0 ha1⟩
  · exact ⟨_, rfl, map_range (cordic_cos_abs_le_one _) ha0 ha1⟩
  · refine ⟨_, rfl, map_range (abs_le.mpr ?_) ha0 ha1⟩
    exact triangle_val_range (normalize_theta_nonneg _ _) (normalize_theta_lt _ _)
  · refine ⟨_, rfl, ?_⟩
    have hp := map_range hone ha0 ha1
    have hm := map_range hneg ha0 ha1
    split_ifs
    · simpa using hp
    · constructor <;> [linarith [hm.1]; linarith [hm.2]]
  · refine ⟨_, rfl, ?_⟩
    simpa using map_range hone ha0 ha1

theorem generate_sample_of_mapped {α : Type} [LinearOrderedField α] [FloorRing α]
    {theta amplitude phase m : α} {w : Char}
    (hm : mapped_value theta amplitude phase w = some m) (h0 : 0 ≤ m) (h1 : m ≤ 4095) :
    (generate_sample theta amplitude phase w : Int) = trunc m := by
  have hu : trunc m ≤ 4095 := trunc_le_of_le h0 (by exact_mod_cast h1)
  have hc := to_uint16_of_range h0 h1
  unfold generate_sample
  simp only [hm]
  rw [clamp_dac_of_le (by omega), hc]

theorem trunc_eq_of_mem {α : Type} [LinearOrderedField α] [FloorRing α]
    {v : α} {n : Nat} (h1 : (n : α) ≤ v) (h2 : v < n + 1) :
    trunc v = n := by
  have h0 : 0 ≤ v := le_trans (Nat.cast_nonneg n) h1
  rw [trunc_of_nonneg h0]
  exact Int.floor_eq_iff.mpr ⟨by exact_mod_cast h1, by exact_mod_cast h2⟩

theorem generate_sample_eq {α : Type} [LinearOrderedField α] [FloorRing α]
    {theta amplitude phase m : α} {w : Char} {n : Nat}
    (hm : mapped_value theta amplitude phase w = some m)
    (h1 : (n : α) ≤ m) (h2 : m < n + 1) (hle : m ≤ 4095) :
    generate_sample theta amplitude phase w = n := by
  have h0 : 0 ≤ m := le_trans (Nat.cast_nonneg n) h1
  have h := generate_sample_of_mapped hm h0 hle
  rw [trunc_eq_of_mem h1 h2] at h
  exact_mod_cast h

theorem normalize_theta_of_range {α : Type} [LinearOrderedField α] [FloorRing α]
    {theta phase : α} (h0 : 0 ≤ theta + phase)
    (h1 : theta + phase < 2 * PI) : normalize_theta theta phase = theta + phase := by
  unfold normalize_theta
  simp only
  rw [fmodf_of_nonneg_lt h0 h1, if_neg (not_lt.mpr h0)]

/-! ## Parameter update -/

theorem waveform_of_index_of_gt {b : Fin 256} (h : 4 < b.val) : waveform_of_index b = 's' := by
  unfold waveform_of_index
  split <;> first | rfl | omega

theorem parameter_update_of_ne {α : Type} [LinearOrderedField α]
    (p : Params α) {n : Nat} (h : n ≠ 4)
    (buf : Fin 4 → Fin 256) : parameter_update p n buf = p := by
  unfold parameter_update
  rw [if_neg h]

theorem byte_ratio_range {α : Type} [LinearOrderedField α]
    (b : Fin 256) : (0 : α) ≤ (b.val : α) / 255 ∧ (b.val : α) / 255 ≤ 1 := by
  have h : (b.val : α) ≤ 255 := by
    have := b.isLt
    exact_mod_cast Nat.le_of_lt_succ this
  have h0 : (0 : α) ≤ (b.val : α) := Nat.cast_nonneg _
  constructor
  · positivity
  · rw [div_le_one (by norm_num)]
    exact h

theorem byte_ratio_lt_one {α : Type} [LinearOrderedField α]
    {b : Fin 256} (h : b.val ≠ 255) : (b.val : α) / 255 < 1 := by
  have h1 : b.val < 255 := by
    have := b.isLt
    omega
  rw [div_lt_one (by norm_num)]
  exact_mod_cast h1

theorem parameter_update_range {α : Type} [LinearOrderedField α]
    (p : Params α) (n : Nat) (buf : Fin 4 → Fin 256)
    (hp : 0 ≤ p.amplitude ∧ p.amplitude ≤ 1 ∧ 0 ≤ p.frequency ∧
      0 ≤ p.phase ∧ p.phase ≤ 2 * PI) :
    0 ≤ (parameter_update p n buf).amplitude ∧ (parameter_update p n buf).amplitude ≤ 1 ∧
    0 ≤ (parameter_update p n buf).frequency ∧
    0 ≤ (parameter_update p n buf).phase ∧ (parameter_update p n buf).phase ≤ 2 * PI := by
  have hpi := PI_pos (α := α)
  unfold parameter_update
  split_ifs with h
  · obtain ⟨h2a, h2b⟩ := byte_ratio_range (α := α) (buf 2)
    obtain ⟨h3a, h3b⟩ := byte_ratio_range (α := α) (buf 3)
    refine ⟨h2a, h2b, Nat.cast_nonneg _, ?_, ?_⟩
    · simp only
      positivity
    · simp only
      nlinarith
  · exact hp

theorem run_loop_range_from {α : Type} [LinearOrderedField α] [FloorRing α]
    (us : List UsbInput) (st : LoopState α)
    (hp : 0 ≤ st.params.amplitude ∧ st.params.amplitude ≤ 1 ∧ 0 ≤ st.params.frequency ∧
      0 ≤ st.params.phase ∧ st.params.phase ≤ 2 * PI) :
    0 ≤ (us.foldl (fun st u => (loop_iteration st u).1) st).params.amplitude ∧
    (us.foldl (fun st u => (loop_iteration st u).1) st).params.amplitude ≤ 1 ∧
    0 ≤ (us.foldl (fun st u => (loop_iteration st u).1) st).params.frequency ∧
    0 ≤ (us.foldl (fun st u => (loop_iteration st u).1) st).params.phase ∧
    (us.foldl (fun st u => (loop_iteration st u).1) st).params.phase ≤ 2 * PI := by
  induction us generalizing st with
  | nil => exact hp
  | cons u us ih =>
    rw [List.foldl_cons]
    apply ih
    simp only [loop_iteration, poll_update]
    split_ifs
    · exact parameter_update_range _ _ _ hp
    · exact hp

/-! ## Evaluation of the rotation loop at particular angles -/

theorem range_sixteen :
    List.range 16 = [0, 1, 2, 3, 4, 5, 6, 7, 8, 9, 10, 11, 12, 13, 14, 15] := by
  decide

set_option maxHeartbeats 1000000 in
theorem cordic_sin_half_pi {α : Type} [LinearOrderedField α] [FloorRing α] :
    0.9999 ≤ (cordic_sin_cos (PI / 2 : α)).1 ∧ (cordic_sin_cos (PI / 2 : α)).1 < 1 := by
  unfold cordic_sin_cos
  rw [fmodf_of_nonneg_lt (by norm_num [PI]) (by norm_num [PI])]
  norm_num [fold_quadrant, PI, CORDIC_ITERATIONS, range_sixteen, cordic_step, cordic_loop, K,
    angles, angles_table, quadrant_correction]

set_option maxHeartbeats 1000000 in
theorem cordic_sin_three_half_pi {α : Type} [LinearOrderedField α] [FloorRing α] :
    -1 < (cordic_sin_cos (3 * PI / 2 : α)).1 ∧
    (cordic_sin_cos (3 * PI / 2 : α)).1 ≤ -0.9999 := by
  unfold cordic_sin_cos
  rw [fmodf_of_nonneg_lt (by norm_num [PI]) (by norm_num [PI])]
  norm_num [fold_quadrant, PI, CORDIC_ITERATIONS, range_sixteen, cordic_step, cordic_loop, K,
    angles, angles_table, quadrant_correction]

set_option maxHeartbeats 1000000 in
theorem cordic_sin_neg_three : (cordic_sin_cos (-3 : ℝ)).1 < -0.9 := by
  unfold cordic_sin_cos
  rw [fmodf_of_neg_gt (by norm_num [PI]) (by norm_num [PI])]
  norm_num [fold_quadrant, PI, CORDIC_ITERATIONS, range_sixteen, cordic_step, cordic_loop, K,
    angles, angles_table, quadrant_correction]

theorem sin_neg_three_gt : -0.15 < Real.sin (-3) := by
  have h1 : 0 < Real.pi - 3 := by linarith [Real.pi_gt_three]
  have h2 := Real.sin_lt h1
  rw [Real.sin_pi_sub] at h2
  have h3 := Real.pi_lt_d2
  rw [Real.sin_neg]
  norm_num at h3 ⊢
  linarith

set_option maxHeartbeats 1000000 in
theorem cordic_sin_one_pos : 0 < (cordic_sin_cos (1 : ℚ)).1 := by
  unfold cordic_sin_cos
  rw [fmodf_of_nonneg_lt (by norm_num [PI]) (by norm_num [PI])]
  norm_num [fold_quadrant, PI, CORDIC_ITERATIONS, range_sixteen, cordic_step, cordic_loop, K,
    angles, angles_table, quadrant_correction]

set_option maxHeartbeats 1000000 in
theorem cordic_sin_one_minus_period_neg :
    (cordic_sin_cos ((1 : ℚ) + 2 * PI * ((-1 : ℤ) : ℚ))).1 < 0 := by
  unfold cordic_sin_cos
  rw [fmodf_of_neg_gt (by norm_num [PI]) (by norm_num [PI])]
  norm_num [fold_quadrant, PI, CORDIC_ITERATIONS, range_sixteen, cordic_step, cordic_loop, K,
    angles, angles_table, quadrant_correction]

theorem normalize_theta_zero_phase {α : Type} [LinearOrderedField α] [FloorRing α]
    {theta : α} (h0 : 0 ≤ theta) (h1 : theta < 2 * PI) : normalize_theta theta 0 = theta := by
  rw [normalize_theta_of_range (by simpa using h0) (by simpa using h1), add_zero]

end Lemmas

/-! ## Properties of `cordic_sin_cos` and `generate_sample` -/

section Properties

/-- C1: for every `theta` and `phase`, every amplitude in `[0, 1]` and each of
the five waveform codes, the value that `generate_sample` converts to
`uint16_t` lies in `[0, 4095]`, the conversion does not wrap (the sample is
the integer part of that value), and the returned sample is at most
`DAC_MAX`. -/
theorem generate_sample_in_range {α : Type} [LinearOrderedField α] [FloorRing α]
    (theta amplitude phase : α) (w : Char)
    (ha0 : 0 ≤ amplitude) (ha1 : amplitude ≤ 1)
    (hw : w = 's' ∨ w = 'c' ∨ w = 't' ∨ w = 'q' ∨ w = 'd') :
    (∃ m, mapped_value theta amplitude phase w = some m ∧ 0 ≤ m ∧ m ≤ 4095 ∧
      (generate_sample theta amplitude phase w : Int) = trunc m) ∧
    0 ≤ generate_sample theta amplitude phase w ∧
    generate_sample theta amplitude phase w ≤ DAC_MAX := by
  obtain ⟨m, hm, h0, h1⟩ := mapped_value_range theta amplitude phase w ha0 ha1 hw
  refine ⟨⟨m, hm, h0, h1, generate_sample_of_mapped hm h0 h1⟩, Nat.zero_le _, ?_⟩
  unfold generate_sample
  exact clamp_dac_le _

/-- Witness of C1: the triangle waveform at `theta = 1`, amplitude `1/2`,
phase `0`, over the rationals. -/
theorem generate_sample_in_range_witness :
    (0 : ℚ) ≤ 1 / 2 ∧ (1 / 2 : ℚ) ≤ 1 ∧
    ((∃ m, mapped_value (1 : ℚ) (1 / 2) 0 't' = some m ∧ 0 ≤ m ∧ m ≤ 4095 ∧
      (generate_sample (1 : ℚ) (1 / 2) 0 't' : Int) = trunc m) ∧
    0 ≤ generate_sample (1 : ℚ) (1 / 2) 0 't' ∧
    generate_sample (1 : ℚ) (1 / 2) 0 't' ≤ DAC_MAX) :=
  ⟨by norm_num, by norm_num,
    generate_sample_in_range 1 (1 / 2) 0 't' (by norm_num) (by norm_num)
      (Or.inr (Or.inr (Or.inl rfl)))⟩

/-- C3: for every `theta` the pair `(s, c)` returned by `cordic_sin_cos`
has `s * s + c * c` equal to the constant `K ^ 2 * ∏ i < 16, (1 + 4 ^ (-i))`,
whatever rotation directions and quadrant correction were taken, and this
value lies between `1 - 1e-4` and `1 + 1e-4`. -/
theorem cordic_sin_cos_unit_length {α : Type} [LinearOrderedField α] [FloorRing α] (theta : α) :
    (cordic_sin_cos theta).1 * (cordic_sin_cos theta).1
        + (cordic_sin_cos theta).2 * (cordic_sin_cos theta).2
      = K ^ 2 * ∏ i ∈ Finset.range 16, (1 + ((4 : α) ^ i)⁻¹) ∧
    1 - 0.0001 ≤ (cordic_sin_cos theta).1 * (cordic_sin_cos theta).1
        + (cordic_sin_cos theta).2 * (cordic_sin_cos theta).2 ∧
    (cordic_sin_cos theta).1 * (cordic_sin_cos theta).1
        + (cordic_sin_cos theta).2 * (cordic_sin_cos theta).2 ≤ 1 + 0.0001 := by
  have h := cordic_sin_cos_norm theta
  rw [sq, sq] at h
  rw [h]
  refine ⟨rfl, gain_ge, le_trans gain_le_one (by norm_num)⟩

/-- C5: for every `theta`, the sine and the cosine returned by
`cordic_sin_cos` both lie in `[-1, 1]`. -/
theorem cordic_sin_cos_bounded {α : Type} [LinearOrderedField α] [FloorRing α] (theta : α) :
    -1 ≤ (cordic_sin_cos theta).1 ∧ (cordic_sin_cos theta).1 ≤ 1 ∧
    -1 ≤ (cordic_sin_cos theta).2 ∧ (cordic_sin_cos theta).2 ≤ 1 := by
  obtain ⟨h1, h2⟩ := abs_le.mp (cordic_sin_abs_le_one theta)
  obtain ⟨h3, h4⟩ := abs_le.mp (cordic_cos_abs_le_one theta)
  exact ⟨h1, h2, h3, h4⟩

/-- C2, at the failing input `theta = -3`: `fmodf` leaves the negative angle
as it is, no quadrant fold applies, every rotation goes the negative way and
the returned sine is below `-0.9`, while `sin (-3)` is above `-0.15`; the two
are not within `1e-4`. -/
theorem cordic_sin_cos_neg_three_inaccurate :
    (cordic_sin_cos (-3 : ℝ)).1 < -0.9 ∧ -0.15 < Real.sin (-3) ∧
    ¬ |(cordic_sin_cos (-3 : ℝ)).1 - Real.sin (-3)| ≤ 0.0001 := by
  have h1 := cordic_sin_neg_three
  have h2 := sin_neg_three_gt
  refine ⟨h1, h2, fun h => ?_⟩
  have h3 := (abs_le.mp h).1
  norm_num at h1 h2 h3
  linarith

/-- C4, at the failing input `theta = 1`, `k = -1`: the sine returned for
`1 + 2 * PI * (-1)` is negative and the sine returned for `1` is positive, so
the two calls return different pairs. -/
theorem cordic_sin_cos_not_periodic_negative :
    (cordic_sin_cos ((1 : ℚ) + 2 * PI * ((-1 : ℤ) : ℚ))).1 < 0 ∧
    0 < (cordic_sin_cos (1 : ℚ)).1 ∧
    cordic_sin_cos ((1 : ℚ) + 2 * PI * ((-1 : ℤ) : ℚ)) ≠ cordic_sin_cos (1 : ℚ) := by
  have h1 := cordic_sin_one_minus_period_neg
  have h2 := cordic_sin_one_pos
  refine ⟨h1, h2, fun h => ?_⟩
  rw [h] at h1
  exact lt_asymm h1 h2

/-- C9: for the sine waveform with amplitude 1 and phase offset 0,
`generate_sample` at `PI / 2` returns 4094, within one count of `DAC_MAX`,
and at `3 * PI / 2` it returns 0, within one count of 0. -/
theorem sine_peak_and_trough {α : Type} [LinearOrderedField α] [FloorRing α] :
    4094 ≤ generate_sample (PI / 2 : α) 1 0 's' ∧
    generate_sample (PI / 2 : α) 1 0 's' ≤ DAC_MAX ∧
    generate_sample (3 * PI / 2 : α) 1 0 's' ≤ 1 ∧
    generate_sample (PI / 2 : α) 1 0 's' = 4094 ∧
    generate_sample (3 * PI / 2 : α) 1 0 's' = 0 := by
  have hpi := PI_pos (α := α)
  have hn1 : normalize_theta (PI / 2 : α) 0 = PI / 2 :=
    normalize_theta_zero_phase (by linarith) (by linarith)
  have hn2 : normalize_theta (3 * PI / 2 : α) 0 = 3 * PI / 2 :=
    normalize_theta_zero_phase (by linarith) (by linarith)
  obtain ⟨ha, hb⟩ := cordic_sin_half_pi (α := α)
  obtain ⟨hc, hd⟩ := cordic_sin_three_half_pi (α := α)
  have e1 : generate_sample (PI / 2 : α) 1 0 's' = 4094 := by
    apply generate_sample_eq (m := 2047.5 + 2047.5 * (cordic_sin_cos (PI / 2 : α)).1 * 1)
    · simp only [mapped_value, hn1]
    · norm_num at ha ⊢
      linarith
    · norm_num at hb ⊢
      linarith
    · norm_num at hb ⊢
      linarith
  have e2 : generate_sample (3 * PI / 2 : α) 1 0 's' = 0 := by
    apply generate_sample_eq (m := 2047.5 + 2047.5 * (cordic_sin_cos (3 * PI / 2 : α)).1 * 1)
    · simp only [mapped_value, hn2]
    · norm_num at hc ⊢
      linarith
    · norm_num at hd ⊢
      linarith
    · norm_num at hd ⊢
      linarith
  rw [e1, e2]
  simp [DAC_MAX]

/-- C10: for the triangle waveform with amplitude 1 and phase offset 0,
`generate_sample` returns 2047 at phase 0, 4095 at `PI / 2` and 0 at
`3 * PI / 2`; and for every reduced angle in `[0, 2 * PI)` the piecewise
triangle value lies in `[-1, 1]`. -/
theorem triangle_samples {α : Type} [LinearOrderedField α] [FloorRing α] :
    generate_sample (0 : α) 1 0 't' = 2047 ∧
    generate_sample (PI / 2 : α) 1 0 't' = 4095 ∧
    generate_sample (3 * PI / 2 : α) 1 0 't' = 0 ∧
    ∀ angle : α, 0 ≤ angle → angle < 2 * PI →
      -1 ≤ triangle_val angle ∧ triangle_val angle ≤ 1 := by
  have hpi := PI_pos (α := α)
  have hn0 : normalize_theta (0 : α) 0 = 0 :=
    normalize_theta_zero_phase (le_refl _) (by linarith)
  have hn1 : normalize_theta (PI / 2 : α) 0 = PI / 2 :=
    normalize_theta_zero_phase (by linarith) (by linarith)
  have hn2 : normalize_theta (3 * PI / 2 : α) 0 = 3 * PI / 2 :=
    normalize_theta_zero_phase (by linarith) (by linarith)
  refine ⟨?_, ?_, ?_, fun angle h0 h1 => triangle_val_range h0 h1⟩
  · apply generate_sample_eq (m := 2047.5) (n := 2047)
    · simp only [mapped_value, hn0]
      norm_num [triangle_val]
    all_goals norm_num
  · apply generate_sample_eq (m := 4095) (n := 4095)
    · simp only [mapped_value, hn1]
      norm_num [triangle_val, PI]
    all_goals norm_num
  · apply generate_sample_eq (m := 0) (n := 0)
    · simp only [mapped_value, hn2]
      norm_num [triangle_val, PI]
    all_goals norm_num

/-- Witness of C10: the triangle value of the reduced angle `1` over the
rationals. -/
theorem triangle_samples_witness :
    (0 : ℚ) ≤ 1 ∧ (1 : ℚ) < 2 * PI ∧
    -1 ≤ triangle_val (1 : ℚ) ∧ triangle_val (1 : ℚ) ≤ 1 :=
  ⟨by norm_num, by norm_num [PI],
    (triangle_samples (α := ℚ)).2.2.2 1 (by norm_num) (by norm_num [PI])⟩

end Properties

/-! ## Properties of the parameter update -/

section ParameterUpdate

/-- C6: in the parameter-update step, a received byte count other than 4
leaves the stored parameters (waveform type, frequency, amplitude, phase)
exactly as they were, for every buffer content. -/
theorem poll_update_of_count_ne_four {α : Type} [LinearOrderedField α]
    (p : Params α) (ready : Bool) (n : Nat)
    (buf : Fin 4 → Fin 256) (h : n ≠ 4) :
    parameter_update p n buf = p ∧
    poll_update p { data_ready := ready, bytes_read := n, receive_buffer := buf } = p := by
  refine ⟨parameter_update_of_ne p h buf, ?_⟩
  unfold poll_update
  split_ifs
  · exact parameter_update_of_ne p h buf
  · rfl

/-- Witness of C6: three bytes received while the defaults are stored. -/
theorem poll_update_of_count_ne_four_witness :
    (3 : Nat) ≠ 4 ∧
    parameter_update (default_params : Params ℚ) 3 ![1, 200, 17, 255] = default_params ∧
    poll_update (default_params : Params ℚ)
      { data_ready := true, bytes_read := 3, receive_buffer := ![1, 200, 17, 255] }
      = default_params :=
  ⟨by decide, poll_update_of_count_ne_four default_params true 3 ![1, 200, 17, 255] (by decide)⟩

/-- C7: a 4-byte record whose first byte is not one of `0..4` sets the
waveform to `'s'` and still applies its frequency, amplitude and phase
bytes. -/
theorem parameter_update_unknown_shape {α : Type} [LinearOrderedField α]
    (p : Params α) (buf : Fin 4 → Fin 256)
    (h : 4 < (buf 0).val) :
    parameter_update p 4 buf =
      { waveform_type := 's',
        frequency := ((buf 1).val : α),
        amplitude := ((buf 2).val : α) / 255,
        phase := ((buf 3).val : α) / 255 * 2 * PI } ∧
    poll_update p { data_ready := true, bytes_read := 4, receive_buffer := buf }
      = parameter_update p 4 buf := by
  constructor
  · unfold parameter_update
    rw [if_pos rfl, waveform_of_index_of_gt h]
  · simp [poll_update]

/-- Witness of C7: the record `[99, 10, 128, 64]` applied to stored parameters
whose waveform is `'q'`. -/
theorem parameter_update_unknown_shape_witness :
    4 < ((![99, 10, 128, 64] : Fin 4 → Fin 256) 0).val ∧
    (parameter_update
        ({ waveform_type := 'q', amplitude := 0, frequency := 3, phase := 1 } : Params ℚ)
        4 ![99, 10, 128, 64] =
      { waveform_type := 's',
        frequency := (((![99, 10, 128, 64] : Fin 4 → Fin 256) 1).val : ℚ),
        amplitude := (((![99, 10, 128, 64] : Fin 4 → Fin 256) 2).val : ℚ) / 255,
        phase := (((![99, 10, 128, 64] : Fin 4 → Fin 256) 3).val : ℚ) / 255 * 2 * PI } ∧
    poll_update
        ({ waveform_type := 'q', amplitude := 0, frequency := 3, phase := 1 } : Params ℚ)
        { data_ready := true, bytes_read := 4, receive_buffer := ![99, 10, 128, 64] }
      = parameter_update
        ({ waveform_type := 'q', amplitude := 0, frequency := 3, phase := 1 } : Params ℚ)
        4 ![99, 10, 128, 64]) :=
  ⟨by decide, parameter_update_unknown_shape _ ![99, 10, 128, 64] (by decide)⟩

end ParameterUpdate

section ParameterRange

/-- C8, as stated, fails: the record `[0, 0, 0, 255]` stores the phase offset
`2 * PI`, which is not strictly below `2 * PI`. -/
theorem phase_byte_255_not_below_two_pi :
    (parameter_update (default_params : Params ℚ) 4 ![0, 0, 0, 255]).phase = 2 * PI ∧
    ¬ (parameter_update (default_params : Params ℚ) 4 ![0, 0, 0, 255]).phase < 2 * PI := by
  have hb : (((![0, 0, 0, 255] : Fin 4 → Fin 256) 3).val : ℚ) = 255 := by
    norm_num
    rfl
  have h : (parameter_update (default_params : Params ℚ) 4 ![0, 0, 0, 255]).phase = 2 * PI := by
    simp only [parameter_update, if_true, hb]
    norm_num
  exact ⟨h, by rw [h]; exact lt_irrefl _⟩

/-- C8, amended: after the update by any 4-byte record the stored amplitude is
in `[0, 1]`, the frequency is non-negative and the phase offset is in the
closed interval `[0, 2 * PI]`, strictly below `2 * PI` unless the phase byte
is 255; the default parameters satisfy the same bounds, and so do the
parameters of every state the loop reaches. -/
theorem parameter_range_invariant {α : Type} [LinearOrderedField α] [FloorRing α] :
    (∀ (p : Params α) (buf : Fin 4 → Fin 256),
      0 ≤ (parameter_update p 4 buf).amplitude ∧ (parameter_update p 4 buf).amplitude ≤ 1 ∧
      0 ≤ (parameter_update p 4 buf).frequency ∧
      0 ≤ (parameter_update p 4 buf).phase ∧ (parameter_update p 4 buf).phase ≤ 2 * PI ∧
      ((parameter_update p 4 buf).phase < 2 * PI ∨ (buf 3).val = 255)) ∧
    (0 ≤ (default_params : Params α).amplitude ∧ (default_params : Params α).amplitude ≤ 1 ∧
      0 ≤ (default_params : Params α).frequency ∧
      0 ≤ (default_params : Params α).phase ∧ (default_params : Params α).phase < 2 * PI) ∧
    (∀ us : List UsbInput,
      0 ≤ (run_loop us : LoopState α).params.amplitude ∧
      (run_loop us : LoopState α).params.amplitude ≤ 1 ∧
      0 ≤ (run_loop us : LoopState α).params.frequency ∧
      0 ≤ (run_loop us : LoopState α).params.phase ∧
      (run_loop us : LoopState α).params.phase ≤ 2 * PI) := by
  have hpi := PI_pos (α := α)
  have hd : 0 ≤ (default_params : Params α).amplitude ∧
      (default_params : Params α).amplitude ≤ 1 ∧
      0 ≤ (default_params : Params α).frequency ∧
      0 ≤ (default_params : Params α).phase ∧ (default_params : Params α).phase ≤ 2 * PI := by
    simp only [default_params]
    refine ⟨by norm_num, by norm_num, by norm_num, le_refl _, by linarith⟩
  refine ⟨fun p buf => ?_, ?_, fun us => run_loop_range_from us initial_state hd⟩
  · obtain ⟨h2a, h2b⟩ := byte_ratio_range (α := α) (buf 2)
    obtain ⟨h3a, h3b⟩ := byte_ratio_range (α := α) (buf 3)
    simp only [parameter_update, if_true]
    refine ⟨h2a, h2b, Nat.cast_nonneg _, by positivity, by nlinarith, ?_⟩
    by_cases hb : (buf 3).val = 255
    · exact Or.inr hb
    · left
      have := byte_ratio_lt_one (α := α) hb
      nlinarith
  · simp only [default_params]
    refine ⟨by norm_num, by norm_num, by norm_num, le_refl _, by linarith⟩

end ParameterRange

/-! ## Waveform cases of `generate_sample` -/

section WaveformLemmas

theorem mapped_value_unrecognised {α : Type} [LinearOrderedField α] [FloorRing α]
    (theta amplitude phase : α) {w : Char}
    (hw : w ≠ 's' ∧ w ≠ 'c' ∧ w ≠ 't' ∧ w ≠ 'q' ∧ w ≠ 'd') :
    mapped_value theta amplitude phase w = none := by
  obtain ⟨h1, h2, h3, h4, h5⟩ := hw
  unfold mapped_value
  split <;> first | rfl | contradiction

theorem clamp_dac_of_gt {n : Nat} (h : 4095 < n) : clamp_dac n = 4095 := by
  unfold clamp_dac DAC_MAX
  simp only [Nat.not_lt_zero, if_false]
  rw [if_pos h]

theorem generate_sample_sine_half_pi {α : Type} [LinearOrderedField α] [FloorRing α] :
    generate_sample (PI / 2 : α) 1 0 's' = 4094 := by
  have hpi := PI_pos (α := α)
  have hn1 : normalize_theta (PI / 2 : α) 0 = PI / 2 :=
    normalize_theta_zero_phase (by linarith) (by linarith)
  obtain ⟨ha, hb⟩ := cordic_sin_half_pi (α := α)
  apply generate_sample_eq (m := 2047.5 + 2047.5 * (cordic_sin_cos (PI / 2 : α)).1 * 1)
  · simp only [mapped_value, hn1]
  · norm_num at ha ⊢
    linarith
  · norm_num at hb ⊢
    linarith
  · norm_num at hb ⊢
    linarith

theorem square_mapped {α : Type} [LinearOrderedField α] [FloorRing α]
    (theta amplitude : α) (h0 : 0 ≤ theta) (h2 : theta < 2 * PI) :
    mapped_value theta amplitude 0 'q' =
      some (if theta < PI then 2047.5 + 2047.5 * amplitude else 2047.5 - 2047.5 * amplitude) := by
  simp only [mapped_value, normalize_theta_zero_phase h0 h2]

end WaveformLemmas

section WaveformProperties

/-- C11: for the square waveform with amplitude 1 and phase offset 0,
`generate_sample` returns `DAC_MAX` for every phase in `[0, PI)` and 0 for
every phase in `[PI, 2 * PI)`. -/
theorem square_samples {α : Type} [LinearOrderedField α] [FloorRing α]
    (theta : α) (h0 : 0 ≤ theta) (h2 : theta < 2 * PI) :
    (theta < PI → generate_sample theta 1 0 'q' = DAC_MAX) ∧
    (PI ≤ theta → generate_sample theta 1 0 'q' = 0) := by
  have hm := square_mapped theta 1 h0 h2
  constructor
  · intro h
    rw [if_pos h] at hm
    exact generate_sample_eq (n := 4095) hm (by norm_num) (by norm_num) (by norm_num)
  · intro h
    rw [if_neg (not_lt.mpr h)] at hm
    exact generate_sample_eq (n := 0) hm (by norm_num) (by norm_num) (by norm_num)

/-- Witness of C11: the phases 1 (first half-turn) and 4 (second half-turn)
over the rationals. -/
theorem square_samples_witness :
    (0 : ℚ) ≤ 1 ∧ (1 : ℚ) < 2 * PI ∧ (1 : ℚ) < PI ∧ generate_sample (1 : ℚ) 1 0 'q' = DAC_MAX ∧
    (0 : ℚ) ≤ 4 ∧ (4 : ℚ) < 2 * PI ∧ (PI : ℚ) ≤ 4 ∧ generate_sample (4 : ℚ) 1 0 'q' = 0 :=
  ⟨by norm_num, by norm_num [PI], by norm_num [PI],
    (square_samples (1 : ℚ) (by norm_num) (by norm_num [PI])).1 (by norm_num [PI]),
    by norm_num, by norm_num [PI], by norm_num [PI],
    (square_samples (4 : ℚ) (by norm_num) (by norm_num [PI])).2 (by norm_num [PI])⟩

/-- C12: for the DC waveform the sample does not depend on `theta` or
`phase`: for every amplitude, any two calls return the same sample (in
particular those at phase 0 and phase `PI`), since the converted value is
`2047.5 + 2047.5 * amplitude`. -/
theorem dc_sample_ignores_phase {α : Type} [LinearOrderedField α] [FloorRing α]
    (amplitude theta1 theta2 phase1 phase2 : α) :
    generate_sample theta1 amplitude phase1 'd' = generate_sample theta2 amplitude phase2 'd' ∧
    generate_sample 0 amplitude phase1 'd' = generate_sample PI amplitude phase1 'd' ∧
    mapped_value theta1 amplitude phase1 'd' = some (2047.5 + 2047.5 * amplitude) := by
  refine ⟨?_, ?_, ?_⟩ <;> simp only [generate_sample, mapped_value]

/-- C13, as stated, fails: with the unrecognised code `'x'` at `theta = PI / 2`,
amplitude 1 and phase 0 the sample is 0, while the sine waveform gives 4094. -/
theorem unrecognised_code_differs_from_sine :
    generate_sample (PI / 2 : ℚ) 1 0 'x' = 0 ∧ generate_sample (PI / 2 : ℚ) 1 0 's' = 4094 ∧
    generate_sample (PI / 2 : ℚ) 1 0 'x' ≠ generate_sample (PI / 2 : ℚ) 1 0 's' := by
  have h1 : generate_sample (PI / 2 : ℚ) 1 0 'x' = 0 := by
    simp [generate_sample, mapped_value, clamp_dac]
  have h2 := generate_sample_sine_half_pi (α := ℚ)
  refine ⟨h1, h2, ?_⟩
  rw [h1, h2]
  decide

/-- C13, amended: with a waveform code that is none of the five recognised
ones, no `case` of the `switch` is taken and `generate_sample` returns the
initial `dac_value`, 0, for every `theta`, amplitude and phase. -/
theorem generate_sample_unrecognised {α : Type} [LinearOrderedField α] [FloorRing α]
    (theta amplitude phase : α) (w : Char)
    (hw : w ≠ 's' ∧ w ≠ 'c' ∧ w ≠ 't' ∧ w ≠ 'q' ∧ w ≠ 'd') :
    mapped_value theta amplitude phase w = none ∧ generate_sample theta amplitude phase w = 0 := by
  have h := mapped_value_unrecognised theta amplitude phase hw
  refine ⟨h, ?_⟩
  unfold generate_sample
  simp only [h]
  exact clamp_dac_of_le (by norm_num)

/-- Witness of C13 (amended): the code `'x'`. -/
theorem generate_sample_unrecognised_witness :
    ('x' ≠ 's' ∧ 'x' ≠ 'c' ∧ 'x' ≠ 't' ∧ 'x' ≠ 'q' ∧ 'x' ≠ 'd') ∧
    mapped_value (1 : ℚ) (1 / 2) 3 'x' = none ∧ generate_sample (1 : ℚ) (1 / 2) 3 'x' = 0 :=
  ⟨by decide, generate_sample_unrecognised 1 (1 / 2) 3 'x' (by decide)⟩

/-- C14, at the failing input (square waveform, amplitude 2, `theta = 4` in
`[PI, 2 * PI)`, phase 0): the mapped value is `-2047.5`, its conversion to
`uint16_t` is `63489`, and the range check on the unsigned value returns
4095, not 0.  Likewise for the DC waveform with amplitude 32 the mapped value
`67567.5` exceeds 4095, is converted to `2031`, and 2031 is returned, not
4095. -/
theorem negative_mapped_value_wraps :
    (mapped_value (4 : ℚ) 2 0 'q' = some (-2047.5) ∧
      to_uint16 (-2047.5 : ℚ) = 63489 ∧
      generate_sample (4 : ℚ) 2 0 'q' = 4095) ∧
    (mapped_value (0 : ℚ) 32 0 'd' = some 67567.5 ∧
      to_uint16 (67567.5 : ℚ) = 2031 ∧
      generate_sample (0 : ℚ) 32 0 'd' = 2031) := by
  have hm : mapped_value (4 : ℚ) 2 0 'q' = some (-2047.5) := by
    rw [square_mapped (4 : ℚ) 2 (by norm_num) (by norm_num [PI]),
      if_neg (by norm_num [PI])]
    norm_num
  have ht : trunc (-2047.5 : ℚ) = -2047 := by
    rw [trunc_of_neg (by norm_num)]
    exact Int.ceil_eq_iff.mpr ⟨by norm_num, by norm_num⟩
  have hu : to_uint16 (-2047.5 : ℚ) = 63489 := by
    unfold to_uint16
    rw [ht]
    decide
  have hm2 : mapped_value (0 : ℚ) 32 0 'd' = some 67567.5 := by
    simp only [mapped_value]
    norm_num
  have ht2 : trunc (67567.5 : ℚ) = 67567 := by
    rw [trunc_of_nonneg (by norm_num)]
    exact Int.floor_eq_iff.mpr ⟨by norm_num, by norm_num⟩
  have hu2 : to_uint16 (67567.5 : ℚ) = 2031 := by
    unfold to_uint16
    rw [ht2]
    decide
  refine ⟨⟨hm, hu, ?_⟩, ⟨hm2, hu2, ?_⟩⟩
  · unfold generate_sample
    simp only [hm, hu]
    exact clamp_dac_of_gt (by norm_num)
  · unfold generate_sample
    simp only [hm2, hu2]
    exact clamp_dac_of_le (by norm_num)

end WaveformProperties

/-! ## Invariants of the main loop -/

section LoopLemmas

theorem run_loop_snoc {α : Type} [LinearOrderedField α] [FloorRing α]
    (us : List UsbInput) (u : UsbInput) :
    (run_loop (us ++ [u]) : LoopState α) = (loop_iteration (run_loop us) u).1 := by
  simp [run_loop, List.foldl_append]

theorem run_loop_induction {α : Type} [LinearOrderedField α] [FloorRing α]
    (P : LoopState α → Prop) (h0 : P initial_state)
    (hstep : ∀ st u, P st → P (loop_iteration st u).1) (us : List UsbInput) :
    P (run_loop us) := by
  induction us using List.reverseRecOn with
  | nil => exact h0
  | append_singleton us u ih =>
    rw [run_loop_snoc]
    exact hstep _ _ ih

theorem waveform_of_index_mem (b : Fin 256) :
    waveform_of_index b = 's' ∨ waveform_of_index b = 'c' ∨ waveform_of_index b = 'q' ∨
    waveform_of_index b = 't' ∨ waveform_of_index b = 'd' := by
  unfold waveform_of_index
  split <;> simp

theorem poll_update_waveform {α : Type} [LinearOrderedField α] (p : Params α) (u : UsbInput)
    (hp : p.waveform_type = 's' ∨ p.waveform_type = 'c' ∨ p.waveform_type = 'q' ∨
      p.waveform_type = 't' ∨ p.waveform_type = 'd') :
    (poll_update p u).waveform_type = 's' ∨ (poll_update p u).waveform_type = 'c' ∨
    (poll_update p u).waveform_type = 'q' ∨ (poll_update p u).waveform_type = 't' ∨
    (poll_update p u).waveform_type = 'd' := by
  unfold poll_update parameter_update
  split_ifs
  · exact waveform_of_index_mem _
  · exact hp
  · exact hp

theorem poll_update_frequency {α : Type} [LinearOrderedField α] (p : Params α) (u : UsbInput)
    (hp : 0 ≤ p.frequency ∧ p.frequency ≤ 255) :
    0 ≤ (poll_update p u).frequency ∧ (poll_update p u).frequency ≤ 255 := by
  unfold poll_update parameter_update
  split_ifs
  · refine ⟨Nat.cast_nonneg _, ?_⟩
    have h := (u.receive_buffer 1).isLt
    have h2 : (u.receive_buffer 1).val ≤ 255 := Nat.le_of_lt_succ h
    show (((u.receive_buffer 1).val : Nat) : α) ≤ 255
    exact_mod_cast h2
  · exact hp
  · exact hp

theorem advance_theta_range {α : Type} [LinearOrderedField α] {theta frequency : α}
    (h0 : 0 ≤ theta) (h1 : theta < 2 * PI) (hf0 : 0 ≤ frequency) (hf1 : frequency ≤ 255) :
    0 ≤ advance_theta theta frequency ∧ advance_theta theta frequency < 2 * PI := by
  have hpi := PI_pos (α := α)
  have hinc0 : 0 ≤ 2 * PI * frequency / ((SAMPLE_RATE : Nat) : α) := by
    unfold SAMPLE_RATE
    positivity
  have hinc1 : 2 * PI * frequency / ((SAMPLE_RATE : Nat) : α) < 2 * PI := by
    unfold SAMPLE_RATE
    rw [div_lt_iff₀ (by norm_num)]
    push_cast
    nlinarith
  unfold advance_theta
  simp only
  split_ifs with h
  · constructor <;> linarith
  · constructor
    · linarith
    · exact not_le.mp h

end LoopLemmas

section LoopProperties

/-- C15: in every state the loop reaches from `theta = 0` and the default
parameters, under any sequence of received records, the stored frequency is in
`[0, 255]` and the phase accumulator `theta` lies in `[0, 2 * PI)`. -/
theorem phase_accumulator_invariant {α : Type} [LinearOrderedField α] [FloorRing α]
    (us : List UsbInput) :
    (0 ≤ (run_loop us : LoopState α).params.frequency ∧
      (run_loop us : LoopState α).params.frequency ≤ 255) ∧
    0 ≤ (run_loop us : LoopState α).theta ∧ (run_loop us : LoopState α).theta < 2 * PI := by
  apply run_loop_induction
    (fun st : LoopState α => (0 ≤ st.params.frequency ∧ st.params.frequency ≤ 255) ∧
      0 ≤ st.theta ∧ st.theta < 2 * PI)
  · have hpi := PI_pos (α := α)
    simp only [initial_state, default_params]
    refine ⟨⟨by norm_num, by norm_num⟩, le_refl _, by linarith⟩
  · intro st u ⟨hf, h0, h1⟩
    have hf2 := poll_update_frequency st.params u hf
    exact ⟨hf2, advance_theta_range h0 h1 hf2.1 hf2.2⟩

/-- C17: in every state the loop reaches from the defaults, under any sequence
of received records, the stored `waveform_type` is one of `'s'`, `'c'`, `'q'`,
`'t'`, `'d'`; so is the waveform passed to `generate_sample` in the next pass,
whatever is received in it. -/
theorem waveform_type_recognised {α : Type} [LinearOrderedField α] [FloorRing α]
    (us : List UsbInput) (u : UsbInput) :
    ((run_loop us : LoopState α).params.waveform_type = 's' ∨
      (run_loop us : LoopState α).params.waveform_type = 'c' ∨
      (run_loop us : LoopState α).params.waveform_type = 'q' ∨
      (run_loop us : LoopState α).params.waveform_type = 't' ∨
      (run_loop us : LoopState α).params.waveform_type = 'd') ∧
    ((poll_update (run_loop us : LoopState α).params u).waveform_type = 's' ∨
      (poll_update (run_loop us : LoopState α).params u).waveform_type = 'c' ∨
      (poll_update (run_loop us : LoopState α).params u).waveform_type = 'q' ∨
      (poll_update (run_loop us : LoopState α).params u).waveform_type = 't' ∨
      (poll_update (run_loop us : LoopState α).params u).waveform_type = 'd') := by
  have h : (run_loop us : LoopState α).params.waveform_type = 's' ∨
      (run_loop us : LoopState α).params.waveform_type = 'c' ∨
      (run_loop us : LoopState α).params.waveform_type = 'q' ∨
      (run_loop us : LoopState α).params.waveform_type = 't' ∨
      (run_loop us : LoopState α).params.waveform_type = 'd' := by
    apply run_loop_induction
      (fun st : LoopState α => st.params.waveform_type = 's' ∨ st.params.waveform_type = 'c' ∨
        st.params.waveform_type = 'q' ∨ st.params.waveform_type = 't' ∨
        st.params.waveform_type = 'd')
    · exact Or.inl rfl
    · intro st u hst
      exact poll_update_waveform st.params u hst
  exact ⟨h, poll_update_waveform _ u h⟩

end LoopProperties

/-! ## Convergence of the accumulated angle -/

section Convergence

theorem angles_values {α : Type} [LinearOrderedField α] :
    (angles 0 : α) = 0.7853981633974483 ∧ (angles 1 : α) = 0.4636476090008061 ∧
    (angles 2 : α) = 0.24497866312686414 ∧ (angles 3 : α) = 0.12435499454676144 ∧
    (angles 4 : α) = 0.06241880999595735 ∧ (angles 5 : α) = 0.031239833430268277 ∧
    (angles 6 : α) = 0.015623728620476831 ∧ (angles 7 : α) = 0.007812341060101111 ∧
    (angles 8 : α) = 0.0039062301319669718 ∧ (angles 9 : α) = 0.0019531225164788188 ∧
    (angles 10 : α) = 0.0009765621895593195 ∧ (angles 11 : α) = 0.0004882812111948983 ∧
    (angles 12 : α) = 0.00024414062014936177 ∧ (angles 13 : α) = 0.00012207031189367021 ∧
    (angles 14 : α) = 6.103515617420877e-05 ∧ (angles 15 : α) = 3.0517578115526096e-05 :=
  ⟨rfl, rfl, rfl, rfl, rfl, rfl, rfl, rfl, rfl, rfl, rfl, rfl, rfl, rfl, rfl, rfl⟩

set_option maxHeartbeats 1000000 in
theorem angles_le_tail {α : Type} [LinearOrderedField α] (i : Nat) (hi : i < 16) :
    (angles i : α) ≤ angles 15 + ∑ j ∈ Finset.Ico (i + 1) 16, angles j := by
  obtain ⟨e0, e1, e2, e3, e4, e5, e6, e7, e8, e9, e10, e11, e12, e13, e14, e15⟩ :=
    angles_values (α := α)
  interval_cases i <;>
    simp only [Finset.sum_Ico_eq_sum_range, Finset.sum_range_succ, Finset.sum_range_zero,
      Nat.reduceAdd, Nat.reduceSub, e0, e1, e2, e3, e4, e5, e6, e7, e8, e9, e10, e11, e12, e13,
      e14, e15] <;>
    norm_num

theorem angles_nonneg {α : Type} [LinearOrderedField α] (i : Nat) : (0 : α) ≤ angles i := by
  rcases Nat.lt_or_ge i 16 with h | h
  · obtain ⟨e0, e1, e2, e3, e4, e5, e6, e7, e8, e9, e10, e11, e12, e13, e14, e15⟩ :=
      angles_values (α := α)
    interval_cases i <;>
      simp only [e0, e1, e2, e3, e4, e5, e6, e7, e8, e9, e10, e11, e12, e13, e14, e15] <;>
      norm_num
  · unfold angles angles_table
    rw [List.getD_eq_default _ _ (by simpa using h)]

theorem residual_step {α : Type} [LinearOrderedField α] {t a b r : α}
    (hbr : b ≤ r) (h : |t - a| ≤ b + r) :
    |t - (if t > a then a + b else a - b)| ≤ r := by
  obtain ⟨h1, h2⟩ := abs_le.mp h
  split_ifs with hc
  · exact abs_le.mpr ⟨by linarith, by linarith⟩
  · have := not_lt.mp hc
    exact abs_le.mpr ⟨by linarith, by linarith⟩

theorem cordic_step_angle {α : Type} [LinearOrderedField α] (t : α) (s : RotationState α)
    (i : Nat) :
    (cordic_step t s i).angle = if t > s.angle then s.angle + angles i else s.angle - angles i := by
  unfold cordic_step
  split_ifs <;> rfl

theorem cordic_loop_residual {α : Type} [LinearOrderedField α] (t : α) (s : RotationState α)
    (h : |t - s.angle| ≤ angles 15 + ∑ j ∈ Finset.Ico 0 16, angles j) (n : Nat) (hn : n ≤ 16) :
    |t - (cordic_loop t n s).angle| ≤ angles 15 + ∑ j ∈ Finset.Ico n 16, angles j := by
  induction n with
  | zero => simpa [cordic_loop] using h
  | succ n ih =>
    have hlt : n < 16 := hn
    have ih2 := ih (Nat.le_of_lt hlt)
    rw [Finset.sum_eq_sum_Ico_succ_bot hlt] at ih2
    rw [cordic_loop_succ, cordic_step_angle]
    exact residual_step (angles_le_tail n hlt) (by linarith)

theorem cordic_loop_converges {α : Type} [LinearOrderedField α] (t : α)
    (h0 : 0 ≤ t) (h1 : t ≤ PI / 2) :
    |t - (cordic_loop t 16 { x := K, y := 0, angle := 0 }).angle| ≤ angles 15 := by
  have h := cordic_loop_residual t { x := K, y := 0, angle := 0 } (by
    simp only [sub_zero, abs_of_nonneg h0]
    refine le_trans h1 ?_
    obtain ⟨e0, e1, e2, e3, e4, e5, e6, e7, e8, e9, e10, e11, e12, e13, e14, e15⟩ :=
      angles_values (α := α)
    simp only [Finset.sum_Ico_eq_sum_range, Finset.sum_range_succ, Finset.sum_range_zero,
      Nat.reduceAdd, Nat.reduceSub, e0, e1, e2, e3, e4, e5, e6, e7, e8, e9, e10, e11, e12, e13,
      e14, e15, PI]
    norm_num) 16
    (le_refl _)
  simpa using h

/-- C19: for every folded target angle `t` in `[0, PI / 2]`, after the 16
iterations of the rotation loop started from accumulated angle 0 the
accumulated angle is within `angles[15]` (`3.0517578115526096e-05`) of `t`;
and each table entry is at most `angles[15]` plus the sum of the later
entries, the property of the table the bound rests on. -/
theorem cordic_angle_convergence {α : Type} [LinearOrderedField α] (t : α)
    (h0 : 0 ≤ t) (h1 : t ≤ PI / 2) :
    |t - (cordic_loop t CORDIC_ITERATIONS { x := K, y := 0, angle := 0 }).angle| ≤ angles 15 ∧
    (angles 15 : α) = 3.0517578115526096e-05 ∧
    ∀ i : Fin 16, (angles i.val : α) ≤ angles 15 + ∑ j ∈ Finset.Ico (i.val + 1) 16, angles j :=
  ⟨cordic_loop_converges t h0 h1, angles_values.2.2.2.2.2.2.2.2.2.2.2.2.2.2.2,
    fun i => angles_le_tail i.val i.isLt⟩

/-- Witness of C19: the target angle 1 over the rationals. -/
theorem cordic_angle_convergence_witness :
    (0 : ℚ) ≤ 1 ∧ (1 : ℚ) ≤ PI / 2 ∧
    (|(1 : ℚ) - (cordic_loop (1 : ℚ) CORDIC_ITERATIONS { x := K, y := 0, angle := 0 }).angle|
        ≤ angles 15 ∧
      (angles 15 : ℚ) = 3.0517578115526096e-05 ∧
      ∀ i : Fin 16, (angles i.val : ℚ) ≤ angles 15 + ∑ j ∈ Finset.Ico (i.val + 1) 16, angles j) :=
  ⟨by norm_num, by norm_num [PI], cordic_angle_convergence 1 (by norm_num) (by norm_num [PI])⟩

end Convergence

/-! ## The loop with the default parameters and no update -/

section EndToEnd

theorem poll_update_idle {α : Type} [LinearOrderedField α] (p : Params α) (u : UsbInput)
    (h : u.data_ready = false ∨ u.bytes_read ≠ 4) : poll_update p u = p := by
  unfold poll_update
  rcases h with h | h
  · simp [h]
  · rw [parameter_update_of_ne p h]
    simp

theorem advance_theta_of_lt {α : Type} [LinearOrderedField α] {theta frequency : α}
    (h : theta + 2 * PI * frequency / ((SAMPLE_RATE : Nat) : α) < 2 * PI) :
    advance_theta theta frequency = theta + 2 * PI * frequency / ((SAMPLE_RATE : Nat) : α) := by
  unfold advance_theta
  simp only
  rw [if_neg (not_le.mpr h)]

theorem run_loop_idle {α : Type} [LinearOrderedField α] [FloorRing α] (us : List UsbInput)
    (hidle : ∀ u ∈ us, u.data_ready = false ∨ u.bytes_read ≠ 4) (hlen : us.length < 1000) :
    (run_loop us : LoopState α) =
      { params := default_params, theta := (us.length : α) * (2 * PI / 1000) } := by
  induction us using List.reverseRecOn with
  | nil => simp [run_loop, initial_state]
  | append_singleton us u ih =>
    have hpi := PI_pos (α := α)
    have hl : us.length + 1 < 1000 := by simpa using hlen
    have hlα : ((us.length : Nat) : α) + 1 < 1000 := by exact_mod_cast hl
    rw [run_loop_snoc, ih (fun v hv => hidle v (List.mem_append_left _ hv)) (by omega)]
    have hu := hidle u (by simp)
    simp only [loop_iteration, poll_update_idle _ u hu]
    have e : (us.length : α) * (2 * PI / 1000)
        + 2 * PI * (default_params : Params α).frequency / ((SAMPLE_RATE : Nat) : α)
        = ((us ++ [u]).length : α) * (2 * PI / 1000) := by
      simp only [default_params, SAMPLE_RATE, List.length_append, List.length_singleton]
      push_cast
      ring
    rw [advance_theta_of_lt (by
      rw [e]
      simp only [List.length_append, List.length_singleton]
      push_cast
      nlinarith), e]

set_option maxHeartbeats 1000000 in
theorem cordic_sin_pi {α : Type} [LinearOrderedField α] [FloorRing α] :
    -0.0001 ≤ (cordic_sin_cos (PI : α)).1 ∧ (cordic_sin_cos (PI : α)).1 ≤ 0.0001 := by
  unfold cordic_sin_cos
  rw [fmodf_of_nonneg_lt (by norm_num [PI]) (by norm_num [PI])]
  norm_num [fold_quadrant, PI, CORDIC_ITERATIONS, range_sixteen, cordic_step, cordic_loop, K,
    angles, angles_table, quadrant_correction]

theorem generate_sample_sine_pi {α : Type} [LinearOrderedField α] [FloorRing α] :
    generate_sample (PI : α) 1 0 's' = 2047 := by
  have hpi := PI_pos (α := α)
  have hn1 : normalize_theta (PI : α) 0 = PI :=
    normalize_theta_zero_phase (by linarith) (by linarith)
  obtain ⟨ha, hb⟩ := cordic_sin_pi (α := α)
  apply generate_sample_eq (m := 2047.5 + 2047.5 * (cordic_sin_cos (PI : α)).1 * 1)
  · simp only [mapped_value, hn1]
  · norm_num at ha ⊢
    linarith
  · norm_num at hb ⊢
    linarith
  · norm_num at hb ⊢
    linarith

end EndToEnd

section EndToEndProperties

/-- C16: with the default parameters (1 Hz sine, amplitude 1, phase offset 0)
and no parameter update applied in any pass, after exactly 250 passes the
accumulator is `PI / 2` and the sample generated in the next pass is at least
4093 (within 2 counts of `DAC_MAX`); after exactly 500 passes the accumulator
is `PI` and the next sample is within 2 counts of 2047. -/
theorem default_sine_quarter_and_half_period {α : Type} [LinearOrderedField α] [FloorRing α]
    (us : List UsbInput) (u : UsbInput)
    (hidle : ∀ v ∈ us, v.data_ready = false ∨ v.bytes_read ≠ 4)
    (hu : u.data_ready = false ∨ u.bytes_read ≠ 4) :
    (us.length = 250 →
      (run_loop us : LoopState α).theta = PI / 2 ∧
      4093 ≤ (loop_iteration (run_loop us : LoopState α) u).2 ∧
      (loop_iteration (run_loop us : LoopState α) u).2 ≤ DAC_MAX) ∧
    (us.length = 500 →
      (run_loop us : LoopState α).theta = PI ∧
      2045 ≤ (loop_iteration (run_loop us : LoopState α) u).2 ∧
      (loop_iteration (run_loop us : LoopState α) u).2 ≤ 2049) := by
  constructor
  · intro hlen
    have hr := run_loop_idle (α := α) us hidle (by omega)
    have ht : ((us.length : Nat) : α) * (2 * PI / 1000) = PI / 2 := by
      rw [hlen]
      push_cast
      ring
    rw [ht] at hr
    simp only [hr, loop_iteration, poll_update_idle _ u hu, default_params,
      generate_sample_sine_half_pi, DAC_MAX]
    exact ⟨trivial, by norm_num, by norm_num⟩
  · intro hlen
    have hr := run_loop_idle (α := α) us hidle (by omega)
    have ht : ((us.length : Nat) : α) * (2 * PI / 1000) = PI := by
      rw [hlen]
      push_cast
      ring
    rw [ht] at hr
    simp only [hr, loop_iteration, poll_update_idle _ u hu, default_params,
      generate_sample_sine_pi]
    exact ⟨trivial, by norm_num, by norm_num⟩

/-- Witness of C16: 250 passes in which no data is ready, and 500 passes in
which three bytes are read, over the rationals. -/
theorem default_sine_quarter_and_half_period_witness :
    ((∀ v ∈ List.replicate 250 (⟨false, 0, ![0, 0, 0, 0]⟩ : UsbInput),
        v.data_ready = false ∨ v.bytes_read ≠ 4) ∧
      ((⟨false, 0, ![0, 0, 0, 0]⟩ : UsbInput).data_ready = false ∨
        (⟨false, 0, ![0, 0, 0, 0]⟩ : UsbInput).bytes_read ≠ 4) ∧
      (List.replicate 250 (⟨false, 0, ![0, 0, 0, 0]⟩ : UsbInput)).length = 250 ∧
      (run_loop (List.replicate 250 ⟨false, 0, ![0, 0, 0, 0]⟩) : LoopState ℚ).theta = PI / 2 ∧
      4093 ≤ (loop_iteration
        (run_loop (List.replicate 250 ⟨false, 0, ![0, 0, 0, 0]⟩) : LoopState ℚ)
        ⟨false, 0, ![0, 0, 0, 0]⟩).2 ∧
      (loop_iteration
        (run_loop (List.replicate 250 ⟨false, 0, ![0, 0, 0, 0]⟩) : LoopState ℚ)
        ⟨false, 0, ![0, 0, 0, 0]⟩).2 ≤ DAC_MAX) ∧
    ((∀ v ∈ List.replicate 500 (⟨true, 3, ![0, 0, 0, 0]⟩ : UsbInput),
        v.data_ready = false ∨ v.bytes_read ≠ 4) ∧
      (List.replicate 500 (⟨true, 3, ![0, 0, 0, 0]⟩ : UsbInput)).length = 500 ∧
      (run_loop (List.replicate 500 ⟨true, 3, ![0, 0, 0, 0]⟩) : LoopState ℚ).theta = PI ∧
      2045 ≤ (loop_iteration
        (run_loop (List.replicate 500 ⟨true, 3, ![0, 0, 0, 0]⟩) : LoopState ℚ)
        ⟨false, 0, ![0, 0, 0, 0]⟩).2 ∧
      (loop_iteration
        (run_loop (List.replicate 500 ⟨true, 3, ![0, 0, 0, 0]⟩) : LoopState ℚ)
        ⟨false, 0, ![0, 0, 0, 0]⟩).2 ≤ 2049) :=
  have hidle : ∀ v ∈ List.replicate 250 (⟨false, 0, ![0, 0, 0, 0]⟩ : UsbInput),
      v.data_ready = false ∨ v.bytes_read ≠ 4 :=
    fun v hv => by
      rw [List.eq_of_mem_replicate hv]
      exact Or.inl rfl
  have hshort : ∀ v ∈ List.replicate 500 (⟨true, 3, ![0, 0, 0, 0]⟩ : UsbInput),
      v.data_ready = false ∨ v.bytes_read ≠ 4 :=
    fun v hv => by
      rw [List.eq_of_mem_replicate hv]
      exact Or.inr (by decide)
  ⟨⟨hidle, Or.inl rfl, List.length_replicate _ _,
      (default_sine_quarter_and_half_period _ _ hidle (Or.inl rfl)).1
        (List.length_replicate _ _)⟩,
    ⟨hshort, List.length_replicate _ _,
      (default_sine_quarter_and_half_period _ _ hshort (Or.inl rfl)).2
        (List.length_replicate _ _)⟩⟩

end EndToEndProperties

/-! ## Accuracy of `cordic_sin_cos` against the real sine and cosine -/

section Taylor

theorem exp_I_partial_sum (x : ℝ) :
    (∑ m ∈ Finset.range 10, ((x : ℂ) * Complex.I) ^ m / (m.factorial : ℂ)) =
      ((1 - x ^ 2 / 2 + x ^ 4 / 24 - x ^ 6 / 720 + x ^ 8 / 40320 : ℝ) : ℂ) +
      ((x - x ^ 3 / 6 + x ^ 5 / 120 - x ^ 7 / 5040 + x ^ 9 / 362880 : ℝ) : ℂ) * Complex.I := by
  have h2 : Complex.I ^ 2 = -1 := Complex.I_sq
  have h3 : Complex.I ^ 3 = -Complex.I := by rw [pow_succ, h2]; ring
  have h4 : Complex.I ^ 4 = 1 := by rw [pow_succ, h3]; ring_nf; rw [h2]; ring
  have h5 : Complex.I ^ 5 = Complex.I := by rw [pow_succ, h4]; ring
  have h6 : Complex.I ^ 6 = -1 := by rw [pow_succ, h5]; ring_nf; rw [h2]
  have h7 : Complex.I ^ 7 = -Complex.I := by rw [pow_succ, h6]; ring
  have h8 : Complex.I ^ 8 = 1 := by rw [pow_succ, h7]; ring_nf; rw [h2]; ring
  have h9 : Complex.I ^ 9 = Complex.I := by rw [pow_succ, h8]; ring
  simp only [Finset.sum_range_succ, Finset.sum_range_zero, mul_pow, h2, h3, h4, h5, h6, h7, h8,
    h9, Nat.factorial]
  push_cast
  ring

theorem exp_I_taylor_bound {x : ℝ} (hx : |x| ≤ 1) :
    Complex.abs (Complex.exp ((x : ℂ) * Complex.I)
      - ∑ m ∈ Finset.range 10, ((x : ℂ) * Complex.I) ^ m / (m.factorial : ℂ))
      ≤ |x| ^ 10 * (11 / 36288000) := by
  have habs : Complex.abs ((x : ℂ) * Complex.I) = |x| := by simp
  have h := Complex.exp_bound (x := (x : ℂ) * Complex.I) (by rw [habs]; exact hx)
    (n := 10) (by norm_num)
  rw [habs] at h
  refine le_trans h (le_of_eq ?_)
  norm_num [Nat.factorial]

theorem cos_taylor_bound {x : ℝ} (hx : |x| ≤ 1) :
    |Real.cos x - (1 - x ^ 2 / 2 + x ^ 4 / 24 - x ^ 6 / 720 + x ^ 8 / 40320)|
      ≤ |x| ^ 10 * (11 / 36288000) := by
  have h := exp_I_taylor_bound hx
  rw [exp_I_partial_sum] at h
  refine le_trans ?_ h
  refine le_trans (le_of_eq ?_) (Complex.abs_re_le_abs _)
  congr 1
  simp only [Complex.sub_re, Complex.add_re, Complex.mul_re, Complex.ofReal_re,
    Complex.ofReal_im, Complex.I_re, Complex.I_im, Complex.exp_ofReal_mul_I_re]
  ring

theorem sin_taylor_bound {x : ℝ} (hx : |x| ≤ 1) :
    |Real.sin x - (x - x ^ 3 / 6 + x ^ 5 / 120 - x ^ 7 / 5040 + x ^ 9 / 362880)|
      ≤ |x| ^ 10 * (11 / 36288000) := by
  have h := exp_I_taylor_bound hx
  rw [exp_I_partial_sum] at h
  refine le_trans ?_ h
  refine le_trans (le_of_eq ?_) (Complex.abs_im_le_abs _)
  congr 1
  simp only [Complex.sub_im, Complex.add_im, Complex.mul_im, Complex.ofReal_re,
    Complex.ofReal_im, Complex.I_re, Complex.I_im, Complex.exp_ofReal_mul_I_im]
  ring

end Taylor

section Arctan

theorem arctan_sub_abs_le {h u e : ℝ} (hh : 0 ≤ h) (hu0 : 0 ≤ u) (hu1 : u ≤ 1)
    (he : |h * Real.cos u - Real.sin u| ≤ e) : |Real.arctan h - u| ≤ 1.6 * e := by
  have hpi3 := Real.pi_gt_three
  have hpi := Real.pi_lt_d2
  have hb0 : 0 ≤ Real.arctan h := by
    have := Real.arctan_strictMono.monotone hh
    rwa [Real.arctan_zero] at this
  have hb1 := Real.arctan_lt_pi_div_two h
  have hr1 : 1 ≤ √(1 + h ^ 2) := by
    rw [Real.one_le_sqrt]
    nlinarith [sq_nonneg h]
  have hr0 : 0 < √(1 + h ^ 2) := lt_of_lt_of_le one_pos hr1
  have hsin : Real.sin (Real.arctan h - u) = (h * Real.cos u - Real.sin u) / √(1 + h ^ 2) := by
    rw [Real.sin_sub, Real.sin_arctan, Real.cos_arctan]
    field_simp
  have hle : |Real.sin (Real.arctan h - u)| ≤ e := by
    rw [hsin, abs_div, abs_of_pos hr0]
    have h0 : 0 ≤ |h * Real.cos u - Real.sin u| := abs_nonneg _
    calc |h * Real.cos u - Real.sin u| / √(1 + h ^ 2)
        ≤ |h * Real.cos u - Real.sin u| / 1 := by
          apply div_le_div_of_nonneg_left h0 one_pos hr1
      _ = |h * Real.cos u - Real.sin u| := div_one _
      _ ≤ e := he
  obtain ⟨hs1, hs2⟩ := abs_le.mp hle
  have hpos : 0 < Real.pi := Real.pi_pos
  rcases le_or_lt 0 (Real.arctan h - u) with hg | hg
  · have hj := Real.mul_le_sin hg (by linarith)
    have h1 : 2 / Real.pi * (Real.arctan h - u) ≤ e := le_trans hj hs2
    have h2 : 2 * (Real.arctan h - u) ≤ Real.pi * e := by
      have := mul_le_mul_of_nonneg_left h1 hpos.le
      have e2 : Real.pi * (2 / Real.pi * (Real.arctan h - u)) = 2 * (Real.arctan h - u) := by
        field_simp
      linarith
    have he0 : 0 ≤ e := le_trans (abs_nonneg _) hle
    rw [abs_of_nonneg hg]
    norm_num at hpi ⊢
    nlinarith
  · have hg2 : 0 ≤ -(Real.arctan h - u) := by linarith
    have hj := Real.mul_le_sin hg2 (by linarith)
    rw [Real.sin_neg] at hj
    have h1 : 2 / Real.pi * (-(Real.arctan h - u)) ≤ e := by linarith
    have h2 : 2 * (-(Real.arctan h - u)) ≤ Real.pi * e := by
      have := mul_le_mul_of_nonneg_left h1 hpos.le
      have e2 : Real.pi * (2 / Real.pi * (-(Real.arctan h - u)))
          = 2 * (-(Real.arctan h - u)) := by
        field_simp
      linarith
    have he0 : 0 ≤ e := le_trans (abs_nonneg _) hle
    rw [abs_of_neg hg]
    norm_num at hpi ⊢
    nlinarith

theorem arctan_table_entry {h u : ℝ} (hh0 : 0 ≤ h) (hh1 : h ≤ 1) (hu0 : 0 ≤ u) (hu1 : u ≤ 0.8)
    (hlo : -0.0000001 ≤ h * (1 - u ^ 2 / 2 + u ^ 4 / 24 - u ^ 6 / 720 + u ^ 8 / 40320)
      - (u - u ^ 3 / 6 + u ^ 5 / 120 - u ^ 7 / 5040 + u ^ 9 / 362880))
    (hhi : h * (1 - u ^ 2 / 2 + u ^ 4 / 24 - u ^ 6 / 720 + u ^ 8 / 40320)
      - (u - u ^ 3 / 6 + u ^ 5 / 120 - u ^ 7 / 5040 + u ^ 9 / 362880) ≤ 0.0000001) :
    |Real.arctan h - u| ≤ 0.0000003 := by
  have hau : |u| ≤ 1 := abs_le.mpr ⟨by linarith, by linarith⟩
  obtain ⟨hc1, hc2⟩ := abs_le.mp (cos_taylor_bound hau)
  obtain ⟨hs1, hs2⟩ := abs_le.mp (sin_taylor_bound hau)
  have hp : |u| ^ 10 * (11 / 36288000) ≤ 0.00000004 := by
    rw [abs_of_nonneg hu0]
    have h10 : u ^ 10 ≤ 0.8 ^ 10 := pow_le_pow_left₀ hu0 hu1 10
    norm_num at h10 ⊢
    linarith
  have hp0 : 0 ≤ |u| ^ 10 * (11 / 36288000) := by positivity
  have hm1 := mul_le_mul_of_nonneg_left hc1 hh0
  have hm2 := mul_le_mul_of_nonneg_left hc2 hh0
  have hm3 : h * (|u| ^ 10 * (11 / 36288000)) ≤ |u| ^ 10 * (11 / 36288000) := by
    nlinarith
  have he : |h * Real.cos u - Real.sin u| ≤ 0.00000018 := by
    rw [abs_le]
    constructor <;> (norm_num at hlo hhi hp ⊢; linarith)
  have := arctan_sub_abs_le hh0 hu0 (by linarith) he
  norm_num at this ⊢
  linarith

set_option maxHeartbeats 1000000 in
theorem arctan_angles (i : Nat) (hi : i < 16) :
    |Real.arctan (1 / 2 ^ i) - angles i| ≤ 0.0000003 := by
  obtain ⟨e0, e1, e2, e3, e4, e5, e6, e7, e8, e9, e10, e11, e12, e13, e14, e15⟩ :=
    angles_values (α := ℝ)
  interval_cases i <;>
    simp only [e0, e1, e2, e3, e4, e5, e6, e7, e8, e9, e10, e11, e12, e13, e14, e15] <;>
    apply arctan_table_entry <;> norm_num

end Arctan

section Rotation

theorem rotate_by_arctan (ρ φ h : ℝ) :
    ρ * Real.cos φ - ρ * Real.sin φ * h
        = ρ * √(1 + h ^ 2) * Real.cos (φ + Real.arctan h) ∧
    ρ * Real.sin φ + ρ * Real.cos φ * h
        = ρ * √(1 + h ^ 2) * Real.sin (φ + Real.arctan h) ∧
    ρ * Real.cos φ + ρ * Real.sin φ * h
        = ρ * √(1 + h ^ 2) * Real.cos (φ - Real.arctan h) ∧
    ρ * Real.sin φ - ρ * Real.cos φ * h
        = ρ * √(1 + h ^ 2) * Real.sin (φ - Real.arctan h) := by
  have hr0 : 0 < √(1 + h ^ 2) := Real.sqrt_pos.mpr (by nlinarith [sq_nonneg h])
  have hr : √(1 + h ^ 2) ≠ 0 := hr0.ne.symm
  rw [Real.cos_add, Real.sin_add, Real.cos_sub, Real.sin_sub, Real.sin_arctan, Real.cos_arctan]
  refine ⟨?_, ?_, ?_, ?_⟩ <;> (field_simp; ring)

theorem cordic_step_polar (t : ℝ) (s : RotationState ℝ) (i : Nat) (hi : i < 16) (b : ℝ)
    (h : ∃ ρ φ : ℝ, 0 ≤ ρ ∧ s.x = ρ * Real.cos φ ∧ s.y = ρ * Real.sin φ ∧
      |φ - s.angle| ≤ b) :
    ∃ ρ φ : ℝ, 0 ≤ ρ ∧ (cordic_step t s i).x = ρ * Real.cos φ ∧
      (cordic_step t s i).y = ρ * Real.sin φ ∧
      |φ - (cordic_step t s i).angle| ≤ b + 0.0000003 := by
  obtain ⟨ρ, φ, hρ, hx, hy, hφ⟩ := h
  obtain ⟨r1, r2, r3, r4⟩ := rotate_by_arctan ρ φ (1 / 2 ^ i)
  have hd := abs_le.mp (arctan_angles i hi)
  obtain ⟨hφ1, hφ2⟩ := abs_le.mp hφ
  have hr : 0 ≤ ρ * √(1 + (1 / 2 ^ i : ℝ) ^ 2) := mul_nonneg hρ (Real.sqrt_nonneg _)
  unfold cordic_step
  split_ifs with hc
  · refine ⟨ρ * √(1 + (1 / 2 ^ i : ℝ) ^ 2), φ + Real.arctan (1 / 2 ^ i), hr, ?_, ?_, ?_⟩
    · simp only [hx, hy]
      rw [← r1]
      ring
    · simp only [hx, hy]
      rw [← r2]
      ring
    · simp only
      exact abs_le.mpr ⟨by linarith [hd.1], by linarith [hd.2]⟩
  · refine ⟨ρ * √(1 + (1 / 2 ^ i : ℝ) ^ 2), φ - Real.arctan (1 / 2 ^ i), hr, ?_, ?_, ?_⟩
    · simp only [hx, hy]
      rw [← r3]
      ring
    · simp only [hx, hy]
      rw [← r4]
      ring
    · simp only
      exact abs_le.mpr ⟨by linarith [hd.1], by linarith [hd.2]⟩

theorem cordic_loop_polar (t : ℝ) (n : Nat) (hn : n ≤ 16) :
    ∃ ρ φ : ℝ, 0 ≤ ρ ∧
      (cordic_loop t n { x := K, y := 0, angle := 0 }).x = ρ * Real.cos φ ∧
      (cordic_loop t n { x := K, y := 0, angle := 0 }).y = ρ * Real.sin φ ∧
      |φ - (cordic_loop t n { x := K, y := 0, angle := 0 }).angle| ≤ n * 0.0000003 := by
  induction n with
  | zero =>
    refine ⟨K, 0, ?_, ?_, ?_, ?_⟩
    · unfold K
      norm_num
    · simp [cordic_loop]
    · simp [cordic_loop]
    · simp [cordic_loop]
  | succ n ih =>
    have h := cordic_step_polar t _ n hn _ (ih (Nat.le_of_succ_le hn))
    rw [cordic_loop_succ]
    obtain ⟨ρ, φ, h1, h2, h3, h4⟩ := h
    refine ⟨ρ, φ, h1, h2, h3, ?_⟩
    push_cast
    linarith

end Rotation

section Accuracy

theorem gain_ge_tight {α : Type} [LinearOrderedField α] :
    1 - 0.000000001 ≤ K ^ 2 * ∏ i ∈ Finset.range 16, (1 + ((4 : α) ^ i)⁻¹) := by
  simp only [Finset.prod_range_succ, Finset.prod_range_zero, K]
  norm_num

theorem abs_sin_sub_sin_le (a b : ℝ) : |Real.sin a - Real.sin b| ≤ |a - b| := by
  rw [Real.sin_sub_sin, abs_mul, abs_mul]
  have h1 : |Real.sin ((a - b) / 2)| ≤ |(a - b) / 2| := Real.abs_sin_le_abs
  have h2 : |Real.cos ((a + b) / 2)| ≤ 1 := Real.abs_cos_le_one _
  have h3 : |(a - b) / 2| = |a - b| / 2 := by rw [abs_div]; norm_num
  have h4 : (0 : ℝ) ≤ |Real.sin ((a - b) / 2)| := abs_nonneg _
  rw [h3] at h1
  norm_num
  nlinarith [abs_nonneg (Real.cos ((a + b) / 2))]

theorem abs_cos_sub_cos_le (a b : ℝ) : |Real.cos a - Real.cos b| ≤ |a - b| := by
  rw [Real.cos_sub_cos, abs_mul, abs_mul]
  have h1 : |Real.sin ((a - b) / 2)| ≤ |(a - b) / 2| := Real.abs_sin_le_abs
  have h2 : |Real.sin ((a + b) / 2)| ≤ 1 := Real.abs_sin_le_one _
  have h3 : |(a - b) / 2| = |a - b| / 2 := by rw [abs_div]; norm_num
  have h4 : (0 : ℝ) ≤ |Real.sin ((a - b) / 2)| := abs_nonneg _
  rw [h3] at h1
  norm_num
  nlinarith [abs_nonneg (Real.sin ((a + b) / 2))]

theorem cordic_core_accuracy (t e : ℝ) (h0 : 0 ≤ t) (h1 : t ≤ PI / 2) :
    |(cordic_loop t 16 { x := K, y := 0, angle := 0 }).y - Real.sin (t + e)| ≤ 0.00004 + |e| ∧
    |(cordic_loop t 16 { x := K, y := 0, angle := 0 }).x - Real.cos (t + e)|
      ≤ 0.00004 + |e| := by
  obtain ⟨ρ, φ, hρ, hx, hy, hφ⟩ := cordic_loop_polar t 16 (le_refl _)
  have hconv := cordic_loop_converges t h0 h1
  have hnorm := cordic_loop_norm t 16 { x := K, y := 0, angle := 0 }
  have hg1 := gain_le_one (α := ℝ)
  have hg2 := gain_ge_tight (α := ℝ)
  have hρ2 : ρ ^ 2 = K ^ 2 * ∏ i ∈ Finset.range 16, (1 + ((4 : ℝ) ^ i)⁻¹) := by
    rw [hx, hy] at hnorm
    have hsc := Real.sin_sq_add_cos_sq φ
    have : (ρ * Real.cos φ) ^ 2 + (ρ * Real.sin φ) ^ 2 = ρ ^ 2 := by
      calc (ρ * Real.cos φ) ^ 2 + (ρ * Real.sin φ) ^ 2
          = ρ ^ 2 * (Real.sin φ ^ 2 + Real.cos φ ^ 2) := by ring
        _ = ρ ^ 2 := by rw [hsc, mul_one]
    rw [this] at hnorm
    rw [hnorm]
    norm_num
  rw [← hρ2] at hg1 hg2
  have hρ1 : ρ ≤ 1 := by nlinarith
  have hρ3 : 1 - 0.000000001 ≤ ρ := by nlinarith
  have ha15 : (angles 15 : ℝ) = 3.0517578115526096e-05 :=
    angles_values.2.2.2.2.2.2.2.2.2.2.2.2.2.2.2
  rw [ha15] at hconv
  have hdist : |φ - (t + e)| ≤ 0.000036 + |e| := by
    obtain ⟨c1, c2⟩ := abs_le.mp hconv
    obtain ⟨p1, p2⟩ := abs_le.mp hφ
    have he1 := le_abs_self e
    have he2 := neg_abs_le e
    rw [abs_le]
    constructor <;> (norm_num at c1 c2 p1 p2 ⊢; linarith)
  have hs := abs_sin_sub_sin_le φ (t + e)
  have hc := abs_cos_sub_cos_le φ (t + e)
  have hs1 := Real.abs_sin_le_one φ
  have hc1 := Real.abs_cos_le_one φ
  have hsy : |ρ * Real.sin φ - Real.sin φ| ≤ 0.000000001 := by
    have : ρ * Real.sin φ - Real.sin φ = -((1 - ρ) * Real.sin φ) := by ring
    rw [this, abs_neg, abs_mul, abs_of_nonneg (by linarith : (0 : ℝ) ≤ 1 - ρ)]
    nlinarith [abs_nonneg (Real.sin φ)]
  have hcx : |ρ * Real.cos φ - Real.cos φ| ≤ 0.000000001 := by
    have : ρ * Real.cos φ - Real.cos φ = -((1 - ρ) * Real.cos φ) := by ring
    rw [this, abs_neg, abs_mul, abs_of_nonneg (by linarith : (0 : ℝ) ≤ 1 - ρ)]
    nlinarith [abs_nonneg (Real.cos φ)]
  rw [hx, hy]
  constructor
  · calc |ρ * Real.sin φ - Real.sin (t + e)|
        = |(ρ * Real.sin φ - Real.sin φ) + (Real.sin φ - Real.sin (t + e))| := by ring_nf
      _ ≤ |ρ * Real.sin φ - Real.sin φ| + |Real.sin φ - Real.sin (t + e)| := abs_add _ _
      _ ≤ 0.00004 + |e| := by norm_num at hsy hdist ⊢; linarith
  · calc |ρ * Real.cos φ - Real.cos (t + e)|
        = |(ρ * Real.cos φ - Real.cos φ) + (Real.cos φ - Real.cos (t + e))| := by ring_nf
      _ ≤ |ρ * Real.cos φ - Real.cos φ| + |Real.cos φ - Real.cos (t + e)| := abs_add _ _
      _ ≤ 0.00004 + |e| := by norm_num at hcx hdist ⊢; linarith

end Accuracy

section Quadrants

theorem fmodf_of_second_period {α : Type} [LinearOrderedField α] [FloorRing α] {x y : α}
    (hy : 0 < y) (h1 : y ≤ x) (h2 : x < 2 * y) : fmodf x y = x - y := by
  have hq0 : 0 ≤ x / y := div_nonneg (by linarith) hy.le
  have hq1 : (1 : α) ≤ x / y := by rwa [le_div_iff₀ hy, one_mul]
  have hq2 : x / y < 1 + 1 := by rw [div_lt_iff₀ hy]; linarith
  unfold fmodf
  rw [trunc_of_nonneg hq0]
  have : ⌊x / y⌋ = 1 := Int.floor_eq_iff.mpr ⟨by exact_mod_cast hq1, by exact_mod_cast hq2⟩
  rw [this]
  simp

theorem PI_lt_pi : (PI : ℝ) < Real.pi ∧ Real.pi - PI < 0.00000000000000000001 := by
  have h1 := Real.pi_gt_d20
  have h2 := Real.pi_lt_d20
  unfold PI
  constructor
  · exact h1
  · norm_num at h1 h2 ⊢
    linarith

theorem fold_accuracy (r e : ℝ) (h0 : 0 ≤ r) (h1 : r < 2 * PI)
    (he : |e| ≤ 0.00000000000000000002) :
    |(quadrant_correction (fold_quadrant r).2
        (cordic_loop (fold_quadrant r).1 16 { x := K, y := 0, angle := 0 })).y
      - Real.sin (r + e)| ≤ 0.0001 ∧
    |(quadrant_correction (fold_quadrant r).2
        (cordic_loop (fold_quadrant r).1 16 { x := K, y := 0, angle := 0 })).x
      - Real.cos (r + e)| ≤ 0.0001 := by
  obtain ⟨hp1, hp2⟩ := PI_lt_pi
  obtain ⟨he1, he2⟩ := abs_le.mp he
  unfold fold_quadrant
  split_ifs with c1 c2 c3
  · -- quadrant 1
    obtain ⟨hs, hc⟩ := cordic_core_accuracy (PI - r) (Real.pi - PI - e) (by linarith) (by linarith)
    have hang : r + e = Real.pi - (PI - r + (Real.pi - PI - e)) := by ring
    have hb : |Real.pi - PI - e| ≤ 0.00000000000000000003 := by
      rw [abs_le]
      constructor <;> (norm_num at hp2 he1 he2 ⊢; linarith)
    simp only [quadrant_correction]
    rw [hang, Real.sin_pi_sub, Real.cos_pi_sub]
    constructor
    · refine le_trans hs ?_
      norm_num at hb ⊢
      linarith
    · rw [← abs_neg]
      refine le_trans (le_of_eq ?_) (le_trans hc ?_)
      · congr 1
        ring
      · norm_num at hb ⊢
        linarith
  · -- quadrant 2
    obtain ⟨hs, hc⟩ := cordic_core_accuracy (r - PI) (PI - Real.pi + e) (by linarith) (by linarith)
    have hang : r + e = (r - PI + (PI - Real.pi + e)) + Real.pi := by ring
    have hb : |PI - Real.pi + e| ≤ 0.00000000000000000003 := by
      rw [abs_le]
      constructor <;> (norm_num at hp2 he1 he2 ⊢; linarith)
    simp only [quadrant_correction]
    rw [hang, Real.sin_add_pi, Real.cos_add_pi]
    constructor
    · rw [← abs_neg]
      refine le_trans (le_of_eq ?_) (le_trans hs ?_)
      · congr 1
        ring
      · norm_num at hb ⊢
        linarith
    · rw [← abs_neg]
      refine le_trans (le_of_eq ?_) (le_trans hc ?_)
      · congr 1
        ring
      · norm_num at hb ⊢
        linarith
  · -- quadrant 3
    obtain ⟨hs, hc⟩ := cordic_core_accuracy (2 * PI - r) (2 * Real.pi - 2 * PI - e)
      (by linarith) (by linarith)
    have hang : r + e = -(2 * PI - r + (2 * Real.pi - 2 * PI - e)) + 2 * Real.pi := by ring
    have hb : |2 * Real.pi - 2 * PI - e| ≤ 0.00000000000000000004 := by
      rw [abs_le]
      constructor <;> (norm_num at hp2 he1 he2 ⊢; linarith)
    simp only [quadrant_correction]
    rw [hang, Real.sin_add_two_pi, Real.cos_add_two_pi, Real.sin_neg, Real.cos_neg]
    constructor
    · rw [← abs_neg]
      refine le_trans (le_of_eq ?_) (le_trans hs ?_)
      · congr 1
        ring
      · norm_num at hb ⊢
        linarith
    · refine le_trans hc ?_
      norm_num at hb ⊢
      linarith
  · -- no fold
    have hr : r ≤ PI / 2 := by
      by_contra hcon
      have hgt : r > PI / 2 := not_le.mp hcon
      have c1' : ¬ r ≤ PI := fun h => c1 ⟨hgt, h⟩
      have c2' : ¬ r ≤ 3 * PI / 2 := fun h => c2 ⟨not_le.mp c1', h⟩
      exact c3 (not_le.mp c2')
    obtain ⟨hs, hc⟩ := cordic_core_accuracy r e h0 hr
    simp only [quadrant_correction]
    constructor
    · refine le_trans hs ?_
      norm_num at he ⊢
      linarith
    · refine le_trans hc ?_
      norm_num at he ⊢
      linarith

theorem cordic_sin_cos_close (theta : ℝ) (h0 : 0 ≤ theta) (h1 : theta < 2 * Real.pi) :
    |(cordic_sin_cos theta).1 - Real.sin theta| ≤ 0.0001 ∧
    |(cordic_sin_cos theta).2 - Real.cos theta| ≤ 0.0001 := by
  obtain ⟨hp1, hp2⟩ := PI_lt_pi
  have hPI : (3 : ℝ) < PI := by
    unfold PI
    norm_num
  have hpi4 := Real.pi_le_four
  unfold cordic_sin_cos
  simp only [CORDIC_ITERATIONS]
  rcases lt_or_le theta (2 * PI) with h | h
  · rw [fmodf_of_nonneg_lt h0 h]
    have := fold_accuracy theta 0 h0 h (by norm_num)
    simpa using this
  · rw [fmodf_of_second_period (by linarith) h (by linarith)]
    have := fold_accuracy (theta - 2 * PI) (2 * PI - 2 * Real.pi) (by linarith) (by linarith)
      (by
        rw [abs_le]
        constructor <;> (norm_num at hp2 ⊢; linarith))
    have hang : theta - 2 * PI + (2 * PI - 2 * Real.pi) = theta - 2 * Real.pi := by ring
    rw [hang, Real.sin_sub_two_pi, Real.cos_sub_two_pi] at this
    exact this

end Quadrants

section AccuracyProperties

/-- C18: on the canonical angle domain, for every real `theta` with
`0 ≤ theta < 2 * π` (which contains `[0, 2 * PI)`), the pair `(s, c)` returned
by `cordic_sin_cos` satisfies `|s - sin theta| ≤ 1e-4` and
`|c - cos theta| ≤ 1e-4`: each of the four quadrant folds followed by its
correction gives the sine and cosine of the original angle. -/
theorem cordic_sin_cos_accuracy_canonical (theta : ℝ) (h0 : 0 ≤ theta)
    (h1 : theta < 2 * Real.pi) :
    |(cordic_sin_cos theta).1 - Real.sin theta| ≤ 0.0001 ∧
    |(cordic_sin_cos theta).2 - Real.cos theta| ≤ 0.0001 :=
  cordic_sin_cos_close theta h0 h1

/-- Witness of C18: the angle 1. -/
theorem cordic_sin_cos_accuracy_canonical_witness :
    (0 : ℝ) ≤ 1 ∧ (1 : ℝ) < 2 * Real.pi ∧
    |(cordic_sin_cos (1 : ℝ)).1 - Real.sin 1| ≤ 0.0001 ∧
    |(cordic_sin_cos (1 : ℝ)).2 - Real.cos 1| ≤ 0.0001 :=
  ⟨zero_le_one, by linarith [Real.pi_gt_three],
    cordic_sin_cos_accuracy_canonical 1 zero_le_one (by linarith [Real.pi_gt_three])⟩

end AccuracyProperties

end Design01
